import Mathlib

/-!
# Verification of the pdftools core (freki document model, block revision,
# sequence recovery, line classifier)

Shallow embedding of the Python sources `loadfreki.py`, `reviseblocks.py`,
`common.py` and `filterpagenumbers.py`.

Modelling conventions:
* Text is modelled as `List Char`; an input file is a `List (List Char)`
  (its newline-terminated lines, with the trailing newline stripped, exactly
  as the Python code reads them).
* Python `float` values are modelled as exact rationals `ℚ`.  All numeric
  literals appearing in the programs and in the concrete inputs used below
  are short decimal fractions, on which IEEE-754 parsing followed by
  shortest-round-trip printing acts exactly like exact decimal arithmetic.
* Python object identity (`list.remove`, which compares `Line` and `Block`
  objects by identity since they define no `__eq__`) is modelled by
  structural equality; theorems that depend on distinctness of line objects
  carry an explicit `Nodup` hypothesis.
* `round` is Python's round-half-to-even on exact rationals.
-/

namespace Pdftools

/-! ## Decimal digits -/

def isDigitCh (c : Char) : Bool := '0' ≤ c && c ≤ '9'

def digitVal (c : Char) : ℕ := c.toNat - 48

/-- The decimal digit character for `n % 10`. -/
def digitCh (n : ℕ) : Char :=
  match n % 10 with
  | 0 => '0' | 1 => '1' | 2 => '2' | 3 => '3' | 4 => '4'
  | 5 => '5' | 6 => '6' | 7 => '7' | 8 => '8' | _ => '9'

/-- Digit-rendering worker.  The first argument is structural fuel (any
value `≥ n` gives the untruncated digit string; `ntoDigits` passes `n`);
this keeps the definition reducible by the kernel. -/
def ntoDigitsAux : ℕ → ℕ → List Char → List Char
  | 0, n, acc => digitCh n :: acc
  | fuel + 1, n, acc =>
    if n < 10 then digitCh n :: acc
    else ntoDigitsAux fuel (n / 10) (digitCh n :: acc)

/-- Decimal rendering of a natural number (no leading zeros). -/
def ntoDigits (n : ℕ) : List Char := ntoDigitsAux n n []

/-- Value of a list of decimal digit characters (most significant first). -/
def digitsToNat (cs : List Char) : ℕ :=
  cs.foldl (fun a c => 10 * a + digitVal c) 0

theorem digitVal_digitCh {n : ℕ} : digitVal (digitCh n) = n % 10 := by
  unfold digitCh
  have h : n % 10 < 10 := Nat.mod_lt _ (by omega)
  interval_cases h : n % 10 <;> simp [digitVal]

theorem isDigitCh_digitCh (n : ℕ) : isDigitCh (digitCh n) = true := by
  unfold digitCh
  have h : n % 10 < 10 := Nat.mod_lt _ (by omega)
  interval_cases h : n % 10 <;> decide

theorem ntoDigitsAux_acc (fuel : ℕ) :
    ∀ (n : ℕ) (acc : List Char),
      ntoDigitsAux fuel n acc = ntoDigitsAux fuel n [] ++ acc := by
  induction fuel with
  | zero => intro n acc; simp [ntoDigitsAux]
  | succ fuel ih =>
    intro n acc
    by_cases h : n < 10
    · simp [ntoDigitsAux, h]
    · simp only [ntoDigitsAux, h, if_false]
      rw [ih (n / 10) (digitCh n :: acc), ih (n / 10) [digitCh n]]
      simp

theorem digitsToNat_append (xs ys : List Char) :
    digitsToNat (xs ++ ys) =
      (ys.foldl (fun a c => 10 * a + digitVal c) (digitsToNat xs)) := by
  simp [digitsToNat, List.foldl_append]

theorem digitsToNat_ntoDigitsAux (fuel : ℕ) :
    ∀ n : ℕ, n ≤ fuel → digitsToNat (ntoDigitsAux fuel n []) = n := by
  induction fuel with
  | zero =>
    intro n hn
    have : n = 0 := by omega
    subst this
    simp [ntoDigitsAux, digitsToNat, digitVal_digitCh]
  | succ fuel ih =>
    intro n hn
    by_cases h : n < 10
    · simp [ntoDigitsAux, h, digitsToNat, digitVal_digitCh, Nat.mod_eq_of_lt h]
    · simp only [ntoDigitsAux, h, if_false]
      rw [ntoDigitsAux_acc, digitsToNat_append]
      have hrec := ih (n / 10) (by omega)
      rw [hrec]
      simp [digitVal_digitCh]
      omega

theorem digitsToNat_ntoDigits (n : ℕ) : digitsToNat (ntoDigits n) = n :=
  digitsToNat_ntoDigitsAux n n le_rfl

theorem ntoDigitsAux_all_digit (fuel : ℕ) :
    ∀ n : ℕ, ∀ c ∈ ntoDigitsAux fuel n [], isDigitCh c = true := by
  induction fuel with
  | zero =>
    intro n c hc
    simp [ntoDigitsAux] at hc
    subst hc
    exact isDigitCh_digitCh n
  | succ fuel ih =>
    intro n c hc
    by_cases h : n < 10
    · simp [ntoDigitsAux, h] at hc
      subst hc
      exact isDigitCh_digitCh n
    · simp only [ntoDigitsAux, h, if_false] at hc
      rw [ntoDigitsAux_acc] at hc
      rcases List.mem_append.1 hc with h1 | h1
      · exact ih (n / 10) c h1
      · rcases List.mem_singleton.1 h1 with rfl
        exact isDigitCh_digitCh n

theorem ntoDigits_all_digit (n : ℕ) :
    ∀ c ∈ ntoDigits n, isDigitCh c = true :=
  ntoDigitsAux_all_digit n n

theorem ntoDigits_ne_nil (n : ℕ) : ntoDigits n ≠ [] := by
  unfold ntoDigits
  cases n with
  | zero => simp [ntoDigitsAux]
  | succ m =>
    by_cases h : m + 1 < 10
    · simp [ntoDigitsAux, h]
    · simp only [ntoDigitsAux, h, if_false]
      rw [ntoDigitsAux_acc]
      simp

/-- Leading zeros do not change the parsed value. -/
theorem digitsToNat_replicate_zero (k : ℕ) (ds : List Char) :
    digitsToNat (List.replicate k '0' ++ ds) = digitsToNat ds := by
  induction k with
  | zero => simp
  | succ k ih =>
    rw [List.replicate_succ, List.cons_append]
    show digitsToNat ('0' :: (List.replicate k '0' ++ ds)) = _
    unfold digitsToNat at *
    simp only [List.foldl_cons]
    have : 10 * 0 + digitVal '0' = 0 := by decide
    rw [this]
    exact ih

/-! ## Python floats as exact rationals -/

/-- Python's `round`: round half to even (exact-rational model). -/
def qroundHE (q : ℚ) : ℤ :=
  let f := ⌊q⌋
  let r := q - f
  if r < 1/2 then f
  else if 1/2 < r then f + 1
  else if Even f then f else f + 1

/-- `round(value/roundto) * roundto`, as used throughout the sources. -/
def roundTo (v r : ℚ) : ℚ := (qroundHE (v / r) : ℚ) * r

/-- Number of fractional digits used when printing `q` (smallest `k ≥ 1`
with `q * 10^k` integral; defaults to 1 when none exists below 61, which
cannot happen for the decimal values these programs manipulate). -/
def fracLen (q : ℚ) : ℕ :=
  match (List.range' 1 60).find? (fun k => (q * (10 : ℚ) ^ k).den = 1) with
  | some k => k
  | none => 1

/-- Fractional digits value of a nonnegative decimal rational. -/
def fracNum (q : ℚ) : ℕ := ((q - ⌊q⌋) * (10 : ℚ) ^ fracLen q).num.toNat

/-- `str(float)` on a nonnegative decimal rational: integer digits, `'.'`,
then the minimal fractional digits (at least one). -/
def renderPos (q : ℚ) : List Char :=
  ntoDigits ⌊q⌋.toNat ++ '.' ::
    (List.replicate (fracLen q - (ntoDigits (fracNum q)).length) '0' ++
      ntoDigits (fracNum q))

/-- `str(float)` model (plain fixed notation). -/
def renderFloat (q : ℚ) : List Char :=
  if q < 0 then '-' :: renderPos (-q) else renderPos q

/-- `f'{q:.2f}'` on a nonnegative rational: fixed two fractional digits,
rounding half to even. -/
def renderFixed2 (q : ℚ) : List Char :=
  ntoDigits ((qroundHE (q * 100)).toNat / 100) ++ '.' ::
    (List.replicate (2 - (ntoDigits ((qroundHE (q * 100)).toNat % 100)).length) '0' ++
      ntoDigits ((qroundHE (q * 100)).toNat % 100))

/-- Exponent suffix of Python float syntax (after `e`/`E`). -/
def parseFloatExp (mant : ℚ) (t : List Char) : Option ℚ :=
  let sgn : ℤ := if t.head? = some '-' then -1 else 1
  let t1 := if t.head? = some '-' ∨ t.head? = some '+' then t.tail else t
  let ed := t1.takeWhile isDigitCh
  if ed = [] ∨ t1.dropWhile isDigitCh ≠ [] then none
  else some (mant * (10 : ℚ) ^ (sgn * (digitsToNat ed : ℤ)))

/-- Unsigned part of Python float syntax: digits, optional fraction,
optional exponent; `sg` is the already-consumed sign. -/
def parseFloatCore (sg : ℚ) (cs1 : List Char) : Option ℚ :=
  let ip := cs1.takeWhile isDigitCh
  let r1 := cs1.dropWhile isDigitCh
  let fp := if r1.head? = some '.' then r1.tail.takeWhile isDigitCh else []
  let r2 := if r1.head? = some '.' then r1.tail.dropWhile isDigitCh else r1
  if ip = [] ∧ fp = [] then none
  else
    let mant : ℚ := sg * ((digitsToNat ip : ℚ) +
      (digitsToNat fp : ℚ) / (10 : ℚ) ^ fp.length)
    if r2 = [] then some mant
    else if r2.head? = some 'e' ∨ r2.head? = some 'E' then
      parseFloatExp mant r2.tail
    else none

/-- Python `float(s)` on the strings accepted by the programs: optional
sign, decimal digits with an optional fractional part, optional exponent.
(`inf`/`nan`/underscore forms are not modelled; none of the theorems below
evaluate the parser on them.) -/
def parseFloat (cs : List Char) : Option ℚ :=
  let sg : ℚ := if cs.head? = some '-' then -1 else 1
  let cs1 := if cs.head? = some '-' ∨ cs.head? = some '+' then cs.tail else cs
  parseFloatCore sg cs1

theorem takeWhile_digits_append (ds rest : List Char)
    (hd : ∀ c ∈ ds, isDigitCh c = true)
    (hr : ∀ h : rest ≠ [], isDigitCh (rest.head h) = false) :
    (ds ++ rest).takeWhile isDigitCh = ds ∧
    (ds ++ rest).dropWhile isDigitCh = rest := by
  induction ds with
  | nil =>
    cases rest with
    | nil => simp
    | cons c t =>
      have := hr (by simp)
      simp at this
      simp [List.takeWhile, List.dropWhile, this]
  | cons c t ih =>
    have hc : isDigitCh c = true := hd c (by simp)
    have iht := ih (fun x hx => hd x (by simp [hx]))
    simp [List.takeWhile, List.dropWhile, hc, iht.1, iht.2]

theorem fracLen_spec (q : ℚ) (hq : ∃ k, 1 ≤ k ∧ k ≤ 60 ∧ (q * (10 : ℚ) ^ k).den = 1) :
    1 ≤ fracLen q ∧ (q * (10 : ℚ) ^ fracLen q).den = 1 := by
  obtain ⟨k, hk1, hk60, hden⟩ := hq
  unfold fracLen
  have hmem : k ∈ List.range' 1 60 := by
    rw [List.mem_range']
    exact ⟨k - 1, by omega, by omega⟩
  have hsome : ((List.range' 1 60).find?
      (fun k => (q * (10 : ℚ) ^ k).den = 1)).isSome := by
    rw [List.find?_isSome]
    exact ⟨k, hmem, by simp [hden]⟩
  obtain ⟨x, hx⟩ := Option.isSome_iff_exists.1 hsome
  have hred : (match (List.range' 1 60).find?
      (fun k => (q * (10 : ℚ) ^ k).den = 1) with
      | some k => k | none => 1) = x := by rw [hx]
  rw [hred]
  have hpx := List.find?_some hx
  have hxmem := List.mem_of_find?_eq_some hx
  rw [List.mem_range'] at hxmem
  obtain ⟨i, hi, rfl⟩ := hxmem
  refine ⟨by omega, ?_⟩
  simpa using hpx

theorem ntoDigitsAux_length_le (fuel : ℕ) :
    ∀ n k : ℕ, n ≤ fuel → n < 10 ^ k → 1 ≤ k →
      (ntoDigitsAux fuel n []).length ≤ k := by
  induction fuel with
  | zero =>
    intro n k hn _ hk
    simp only [ntoDigitsAux, List.length_singleton]
    omega
  | succ fuel ih =>
    intro n k hn h hk
    by_cases h10 : n < 10
    · simp only [ntoDigitsAux, h10, if_true, List.length_singleton]
      omega
    · simp only [ntoDigitsAux, h10, if_false]
      rw [ntoDigitsAux_acc]
      have hk2 : 2 ≤ k := by
        by_contra hc
        have : k = 1 := by omega
        subst this
        simp at h
        omega
      have hdiv : n / 10 < 10 ^ (k - 1) := by
        have hpow : 10 ^ (k - 1) * 10 = 10 ^ k := by
          rw [← pow_succ]
          congr 1
          omega
        have : n < 10 ^ (k - 1) * 10 := by omega
        omega
      have := ih (n / 10) (k - 1) (by omega) hdiv (by omega)
      simp only [List.length_append, List.length_singleton]
      omega

theorem ntoDigits_length_le {n k : ℕ} (h : n < 10 ^ k) (hk : 1 ≤ k) :
    (ntoDigits n).length ≤ k :=
  ntoDigitsAux_length_le n n k le_rfl h hk

/-- `parseFloatCore` on a plain decimal `digits.digits`. -/
theorem parseFloatCore_plain (sg : ℚ) (ds fs : List Char) (hne : ds ≠ [])
    (hd : ∀ c ∈ ds, isDigitCh c = true) (hf : ∀ c ∈ fs, isDigitCh c = true) :
    parseFloatCore sg (ds ++ '.' :: fs) = some (sg * ((digitsToNat ds : ℚ) +
      (digitsToNat fs : ℚ) / (10 : ℚ) ^ fs.length)) := by
  have htw := takeWhile_digits_append ds ('.' :: fs) hd
    (by intro h; rw [List.head_cons]; decide)
  have hfw := takeWhile_digits_append fs [] hf (by intro h; simp at h)
  simp only [List.append_nil] at hfw
  unfold parseFloatCore
  rw [htw.1, htw.2]
  simp only [List.head?_cons, List.tail_cons, if_pos rfl]
  rw [hfw.1, hfw.2]
  simp [hne]

/-- Printing then re-reading a nonnegative decimal rational is the
identity (this mirrors the shortest-round-trip guarantee of Python float
printing on its own output). -/
theorem parseFloatCore_renderPos (sg : ℚ) (q : ℚ) (hq : 0 ≤ q)
    (hden : ∃ k, 1 ≤ k ∧ k ≤ 60 ∧ (q * (10 : ℚ) ^ k).den = 1) :
    parseFloatCore sg (renderPos q) = some (sg * q) := by
  obtain ⟨hk1, hkden⟩ := fracLen_spec q hden
  have hfl : (0 : ℤ) ≤ ⌊q⌋ := Int.floor_nonneg.2 hq
  have hfrac0 : (0 : ℚ) ≤ q - ⌊q⌋ := by
    have h2 := Int.floor_le q
    linarith
  have hfrac1 : q - ⌊q⌋ < 1 := by
    have := Int.lt_floor_add_one q
    linarith
  have hfeq : (q - ⌊q⌋) * (10 : ℚ) ^ fracLen q =
      ((q * (10 : ℚ) ^ fracLen q).num - ⌊q⌋ * 10 ^ fracLen q : ℤ) := by
    have hqk := Rat.coe_int_num_of_den_eq_one hkden
    push_cast
    rw [hqk]
    ring
  have hfden : ((q - ⌊q⌋) * (10 : ℚ) ^ fracLen q).den = 1 := by
    rw [hfeq]
    exact Rat.den_intCast _
  have hfnum0 : (0 : ℤ) ≤ ((q - ⌊q⌋) * (10 : ℚ) ^ fracLen q).num := by
    apply Rat.num_nonneg.2
    positivity
  have hfnq : ((fracNum q : ℕ) : ℚ) = (q - ⌊q⌋) * (10 : ℚ) ^ fracLen q := by
    unfold fracNum
    calc ((((q - ⌊q⌋) * (10 : ℚ) ^ fracLen q).num.toNat : ℕ) : ℚ)
        = ((((q - ⌊q⌋) * (10 : ℚ) ^ fracLen q).num.toNat : ℤ) : ℚ) := by
          push_cast
          ring
      _ = ((((q - ⌊q⌋) * (10 : ℚ) ^ fracLen q).num : ℤ) : ℚ) := by
          rw [Int.toNat_of_nonneg hfnum0]
      _ = (q - ⌊q⌋) * (10 : ℚ) ^ fracLen q := Rat.coe_int_num_of_den_eq_one hfden
  set fn : ℕ := fracNum q with hfndef
  have hfn_lt : fn < 10 ^ fracLen q := by
    have h1 : (fn : ℚ) < (10 : ℚ) ^ fracLen q := by
      rw [hfnq]
      have hpow : (0 : ℚ) < (10 : ℚ) ^ fracLen q := by positivity
      nlinarith
    exact_mod_cast h1
  have hlen : (ntoDigits fn).length ≤ fracLen q := ntoDigits_length_le hfn_lt hk1
  have hfd : ∀ c ∈ List.replicate (fracLen q - (ntoDigits fn).length) '0' ++
      ntoDigits fn, isDigitCh c = true := by
    intro c hc
    rcases List.mem_append.1 hc with h1 | h1
    · rw [List.eq_of_mem_replicate h1]
      decide
    · exact ntoDigits_all_digit fn c h1
  show parseFloatCore sg (ntoDigits ⌊q⌋.toNat ++ '.' ::
      (List.replicate (fracLen q - (ntoDigits fn).length) '0' ++ ntoDigits fn)) = _
  rw [parseFloatCore_plain _ _ _ (ntoDigits_ne_nil _) (ntoDigits_all_digit _) hfd]
  congr 2
  rw [digitsToNat_replicate_zero, digitsToNat_ntoDigits, digitsToNat_ntoDigits]
  have hlength : (List.replicate (fracLen q - (ntoDigits fn).length) '0' ++
      ntoDigits fn).length = fracLen q := by
    simp [List.length_append, List.length_replicate]
    omega
  rw [hlength]
  have hip : ((⌊q⌋.toNat : ℕ) : ℚ) = (⌊q⌋ : ℚ) := by
    calc ((⌊q⌋.toNat : ℕ) : ℚ) = ((⌊q⌋.toNat : ℤ) : ℚ) := by push_cast; ring
      _ = (⌊q⌋ : ℚ) := by rw [Int.toNat_of_nonneg hfl]
  rw [hip]
  have hpow : (0 : ℚ) < (10 : ℚ) ^ fracLen q := by positivity
  field_simp
  linarith [hfnq]

theorem renderPos_head_digit (q : ℚ) :
    ∃ c t, renderPos q = c :: t ∧ isDigitCh c = true := by
  obtain ⟨c, t, hct⟩ := List.exists_cons_of_ne_nil (ntoDigits_ne_nil ⌊q⌋.toNat)
  refine ⟨c, t ++ '.' :: (List.replicate (fracLen q -
      (ntoDigits (fracNum q)).length) '0' ++ ntoDigits (fracNum q)), ?_, ?_⟩
  · unfold renderPos
    rw [hct]
    simp
  · exact ntoDigits_all_digit _ c (by rw [hct]; simp)

/-- Printing then re-reading a decimal rational is the identity. -/
theorem parseFloat_renderFloat (q : ℚ)
    (hden : ∃ k, 1 ≤ k ∧ k ≤ 60 ∧ (q * (10 : ℚ) ^ k).den = 1) :
    parseFloat (renderFloat q) = some q := by
  unfold renderFloat
  by_cases hq : q < 0
  · simp only [hq, if_true]
    have hden' : ∃ k, 1 ≤ k ∧ k ≤ 60 ∧ ((-q) * (10 : ℚ) ^ k).den = 1 := by
      obtain ⟨k, h1, h2, h3⟩ := hden
      refine ⟨k, h1, h2, ?_⟩
      rw [neg_mul]
      rw [Rat.neg_den]
      exact h3
    unfold parseFloat
    show parseFloatCore (-1) (renderPos (-q)) = some q
    rw [parseFloatCore_renderPos (-1) (-q) (by linarith) hden']
    norm_num
  · simp only [hq, if_false]
    obtain ⟨c, t, hct, hcd⟩ := renderPos_head_digit q
    have hcm : c ≠ '-' ∧ c ≠ '+' := by
      constructor <;> rintro rfl <;> simp [isDigitCh] at hcd
    unfold parseFloat
    rw [hct]
    simp only [List.head?_cons]
    rw [if_neg (by simp [hcm.1]), if_neg (by simp [hcm.1, hcm.2]), ← hct]
    rw [parseFloatCore_renderPos 1 q (by linarith) hden]
    norm_num

/-! ## Character classes (`common.py` constants)

`LC_CHARS`/`UC_CHARS` are the characters `c` in `range(0x00, 0xFF)` with
`c.isalpha() and c.islower()` (resp. `isupper()`): ASCII letters plus the
Latin-1 letters (note `0xFF`/`ÿ` is excluded by the half-open range).
Python's Unicode-aware `isdigit`/`isupper`/`isspace` and the regex classes
are modelled exactly on the Latin-1 range; code points `≥ 0x100` are
modelled as foreign letters (all concrete strings evaluated in this file
are Latin-1). -/

def isPySpace (c : Char) : Bool :=
  (9 ≤ c.toNat && c.toNat ≤ 13) || c.toNat = 32 ||
  (28 ≤ c.toNat && c.toNat ≤ 31) || c.toNat = 0x85 || c.toNat = 0xA0

/-- `string.punctuation` membership (exactly the 32 ASCII punctuation
characters). -/
def isPunctCh (c : Char) : Bool :=
  (33 ≤ c.toNat && c.toNat ≤ 47) || (58 ≤ c.toNat && c.toNat ≤ 64) ||
  (91 ≤ c.toNat && c.toNat ≤ 96) || (123 ≤ c.toNat && c.toNat ≤ 126)

/-- Membership in `LC_CHARS`. -/
def isLcCh (c : Char) : Bool :=
  (0x61 ≤ c.toNat && c.toNat ≤ 0x7A) || c.toNat = 0xAA || c.toNat = 0xB5 ||
  c.toNat = 0xBA || (0xDF ≤ c.toNat && c.toNat ≤ 0xF6) ||
  (0xF8 ≤ c.toNat && c.toNat ≤ 0xFE)

/-- Membership in `UC_CHARS`. -/
def isUcCh (c : Char) : Bool :=
  (0x41 ≤ c.toNat && c.toNat ≤ 0x5A) || (0xC0 ≤ c.toNat && c.toNat ≤ 0xD6) ||
  (0xD8 ≤ c.toNat && c.toNat ≤ 0xDE)

/-- A letter matched by `FOREIGN_LETTER_RE` (`[^\W\d_]` minus
`LC_CHARS`/`UC_CHARS`): `ÿ` plus everything beyond Latin-1. -/
def isForeignLetter (c : Char) : Bool :=
  c.toNat = 0xFF || 0x100 ≤ c.toNat

/-- Regex word character `\w`. -/
def isWordCh (c : Char) : Bool :=
  isLcCh c || isUcCh c || isDigitCh c || c.toNat = 0x5F || isForeignLetter c

/-! ## Line classifier (`common.py`) -/

def nonspace_count (s : List Char) : ℕ := (s.filter (fun c => !isPySpace c)).length

def digit_count (s : List Char) : ℕ := (s.filter isDigitCh).length

def upper_count (s : List Char) : ℕ := (s.filter isUcCh).length

def punct_count (s : List Char) : ℕ := (s.filter isPunctCh).length

def foreign_count (s : List Char) : ℕ := (s.filter isForeignLetter).length

/-- `\b` holds before the current position given the previous character. -/
def atBoundary (prev : Option Char) : Bool :=
  match prev with
  | none => true
  | some p => !isWordCh p

/-- `len(WORD_RE.findall(line))`: non-overlapping maximal runs of at least
three `LC_CHARS` letters delimited by word boundaries.  The first
argument is structural fuel (each step consumes at least one character,
so the string length suffices; `num_words` passes it). -/
def wordsAux : ℕ → Option Char → List Char → ℕ
  | 0, _, _ => 0
  | _, _, [] => 0
  | fuel + 1, prev, c :: t =>
    if atBoundary prev && isLcCh c then
      let run := c :: t.takeWhile isLcCh
      let rest := t.dropWhile isLcCh
      if 3 ≤ run.length &&
          (match rest with | [] => true | x :: _ => !isWordCh x) then
        1 + wordsAux fuel (some (run.getLastD c)) rest
      else
        wordsAux fuel (some c) t
    else
      wordsAux fuel (some c) t

def num_words (s : List Char) : ℕ := wordsAux s.length none s

/-- `len(CAP_WORD_RE.findall(line))`: runs of uppercase letters followed
by optional lowercase letters, delimited by word boundaries (fuelled like
`wordsAux`). -/
def capWordsAux : ℕ → Option Char → List Char → ℕ
  | 0, _, _ => 0
  | _, _, [] => 0
  | fuel + 1, prev, c :: t =>
    if atBoundary prev && isUcCh c then
      let r1 := t.dropWhile isUcCh
      let l := r1.takeWhile isLcCh
      let r2 := r1.dropWhile isLcCh
      if (match r2 with | [] => true | x :: _ => !isWordCh x) then
        1 + capWordsAux fuel (some (l.getLastD c)) r2
      else
        capWordsAux fuel (some c) t
    else
      capWordsAux fuel (some c) t

def num_cap_words (s : List Char) : ℕ := capWordsAux s.length none s

def is_blank_line (s : List Char) : Bool := s.all isPySpace

def is_short_line (s : List Char) : Bool := nonspace_count s ≤ 10

def is_digit_line (s : List Char) : Bool :=
  (1 : ℚ) / 2 < (digit_count s : ℚ) / (nonspace_count s : ℚ)

def is_upper_line (s : List Char) : Bool :=
  (1 : ℚ) / 4 < (upper_count s : ℚ) / (nonspace_count s : ℚ)

def is_punct_line (s : List Char) : Bool :=
  (1 : ℚ) / 2 < (punct_count s : ℚ) / (nonspace_count s : ℚ)

def is_foreign_line (s : List Char) : Bool :=
  (1 : ℚ) / 10 < (foreign_count s : ℚ) / (nonspace_count s : ℚ)

def is_cap_word_line (s : List Char) : Bool :=
  max 3 (2 * num_words s) < num_cap_words s

def is_min_word_line (s : List Char) : Bool := num_words s < 3

inductive LineCategory where
  | BLANK | SHORT | DIGIT | PUNCT | UPPER | MINWD | FORGN | CAPWD | MIXED
  | PROSE
  deriving DecidableEq

/-- The ordered rule table `LINE_CATEGORY_FUNCS`. -/
def lineCategoryFuncs : List ((List Char → Bool) × LineCategory) :=
  [(is_blank_line, .BLANK), (is_short_line, .SHORT), (is_digit_line, .DIGIT),
   (is_upper_line, .UPPER), (is_punct_line, .PUNCT),
   (is_foreign_line, .FORGN), (is_cap_word_line, .CAPWD),
   (is_min_word_line, .MINWD)]

def firstCategory : List ((List Char → Bool) × LineCategory) → List Char →
    LineCategory
  | [], _ => .PROSE
  | (f, cat) :: rest, s => if f s then cat else firstCategory rest s

def categorize_line (s : List Char) : LineCategory :=
  firstCategory lineCategoryFuncs s

def is_prose_line (s : List Char) : Bool := categorize_line s = .PROSE

/-! ## Longest increasing subsequence (`common.py`) -/

/-- Binary search step of `longest_increasing_subsequence`: the largest
`lo` reachable from `(lo, hi)` (list accesses mirror the Python index
arithmetic; all indices stay in range on the calls made below, the
`getD 0` default is never used there). -/
def lisSearch [Inhabited α] (lt : α → α → Bool) (seq : Array α)
    (minIdx : Array ℕ) (i : ℕ) : ℕ → ℕ → ℕ → ℕ
  | 0, lo, _ => lo
  | fuel + 1, lo, hi =>
    if lo < hi then
      if lt (seq.getD (minIdx.getD (lo + (hi - lo) / 2) 0) default)
          (seq.getD i default) then
        lisSearch lt seq minIdx i fuel (lo + (hi - lo) / 2 + 1) hi
      else
        lisSearch lt seq minIdx i fuel lo (lo + (hi - lo) / 2)
    else lo

/-- Main loop of `longest_increasing_subsequence` over `i` (fuelled with
the remaining index count, which decreases by one per step). -/
def lisLoop [Inhabited α] (lt : α → α → Bool) (seq : Array α) :
    ℕ → ℕ → Array ℕ → Array ℕ → ℕ → (Array ℕ × Array ℕ × ℕ)
  | 0, _, minIdx, pred, maxLen => (minIdx, pred, maxLen)
  | fuel + 1, i, minIdx, pred, maxLen =>
    if i < seq.size then
      let newLen := lisSearch lt seq minIdx i (maxLen + 1) 1 (maxLen + 1)
      let pred' := pred.setD i (minIdx.getD (newLen - 1) 0)
      let minIdx' := minIdx.setD newLen i
      let maxLen' := if maxLen < newLen then newLen else maxLen
      lisLoop lt seq fuel (i + 1) minIdx' pred' maxLen'
    else (minIdx, pred, maxLen)

/-- Reconstruction loop (`for i in reversed(range(max_len))`). -/
def lisRebuild (seq : Array α) (pred : Array ℕ) [Inhabited α] :
    ℕ → ℕ → List α → List α
  | 0, _, acc => acc
  | n + 1, k, acc =>
    lisRebuild seq pred n (pred.getD k 0) (seq.getD k default :: acc)

/-- `longest_increasing_subsequence` from `common.py` (O(n log n) patience
algorithm with predecessor reconstruction), parameterized by the `<` of
the sequence elements.  The binary-search and main-loop fuels
(`maxLen + 1` and `seq.size`) strictly dominate the respective iteration
counts, so the fuelled loops run to their natural completion. -/
def longest_increasing_subsequence [Inhabited α] (lt : α → α → Bool)
    (seq : Array α) : List α :=
  let minIdx := Array.mkArray (seq.size + 1) 0
  let pred := Array.mkArray seq.size 0
  let (minIdx', pred', maxLen) := lisLoop lt seq seq.size 0 minIdx pred 0
  lisRebuild seq pred' maxLen (minIdx'.getD maxLen 0) []

/-! ## Document model (`loadfreki.py`) -/

structure BBox where
  llx : ℚ
  lly : ℚ
  urx : ℚ
  ury : ℚ
  deriving DecidableEq

def BBox.width (b : BBox) : ℚ := b.urx - b.llx

def BBox.height (b : BBox) : ℚ := b.ury - b.lly

def BBox.is_above (b o : BBox) : Bool := o.ury ≤ b.lly

def BBox.contains (b o : BBox) : Bool :=
  b.llx ≤ o.llx && b.lly ≤ o.lly && o.urx ≤ b.urx && o.ury ≤ b.ury

def BBox.expand_to_contain (b o : BBox) : BBox :=
  ⟨min b.llx o.llx, min b.lly o.lly, max b.urx o.urx, max b.ury o.ury⟩

/-- `vertical_distance`; the source raises `ValueError` when neither box
is above the other, and every call site is guarded by `is_above` checks,
so the unreachable branch returns 0 here. -/
def BBox.vertical_distance (b o : BBox) : ℚ :=
  if b.is_above o then b.lly - o.ury
  else if o.is_above b then o.lly - b.ury
  else 0

def BBox.to_freki (b : BBox) : List Char :=
  renderFloat b.llx ++ ',' :: renderFloat b.lly ++ ',' ::
    renderFloat b.urx ++ ',' :: renderFloat b.ury

structure Font where
  tag : List Char
  name : List Char
  size : ℚ
  deriving DecidableEq

def Font.to_freki (f : Font) : List Char :=
  if f.tag = [] then f.name ++ '-' :: renderFloat f.size
  else f.tag ++ '+' :: f.name ++ '-' :: renderFloat f.size

/-- Python `Font.__eq__` / `__hash__` ignore the subset tag. -/
def Font.eqPy (f g : Font) : Bool := f.name = g.name && f.size = g.size

/-- One physical line.  `line_num` keeps the digit string exactly as
parsed (the source never converts it to `int`).  `blanks` is the raw
alignment padding.  Object identity is structural equality (see the file
header). -/
structure Line where
  line_num : List Char
  fonts : List Font
  bbox : BBox
  iscore : Option ℚ
  blanks : List Char
  text : List Char
  deriving DecidableEq

def Line.max_font_size (l : Line) : ℚ :=
  roundTo ((l.fonts.map Font.size).foldl max
    ((l.fonts.headD ⟨[], [], 0⟩).size)) (1/10)

def Line.min_font_size (l : Line) : ℚ :=
  roundTo ((l.fonts.map Font.size).foldl min
    ((l.fonts.headD ⟨[], [], 0⟩).size)) (1/10)

/-- A block: `start_line`/`end_line` keep their digit strings exactly as
parsed. -/
structure Block where
  doc_id : List Char
  page_index : ℕ
  id : List Char
  bbox : BBox
  label : List Char
  start_line : List Char
  end_line : List Char
  lines : List Line
  deriving DecidableEq

def Block.max_font_size (b : Block) : ℚ :=
  roundTo (((b.lines.flatMap fun l => l.fonts.map Font.size).foldl max
    (((b.lines.flatMap fun l => l.fonts.map Font.size)).headD 0)) ) (1/10)

def Block.min_font_size (b : Block) : ℚ :=
  roundTo (((b.lines.flatMap fun l => l.fonts.map Font.size).foldl min
    (((b.lines.flatMap fun l => l.fonts.map Font.size)).headD 0)) ) (1/10)

def Block.min_llx (b : Block) : ℚ :=
  roundTo (((b.lines.map fun l => l.bbox.llx).foldl min
    (((b.lines.map fun l => l.bbox.llx)).headD 0))) 1

def Block.max_llx (b : Block) : ℚ :=
  roundTo (((b.lines.map fun l => l.bbox.llx).foldl max
    (((b.lines.map fun l => l.bbox.llx)).headD 0))) 1

/-- `Block.add_line`: expand the bbox, append the line. -/
def Block.add_line (b : Block) (l : Line) : Block :=
  { b with bbox := b.bbox.expand_to_contain l.bbox, lines := b.lines ++ [l] }

def Block.add_lines (b : Block) (ls : List Line) : Block :=
  ls.foldl Block.add_line b

/-- `self.lines.remove(l)` for each requested line (first structurally
equal occurrence, `ValueError` for absent lines swallowed). -/
def removeEach (lines : List Line) (req : List Line) : List Line :=
  req.foldl (fun acc l => acc.erase l) lines

/-- `Block.remove_lines`: remove the requested lines; if the block is
emptied the bbox is left untouched, otherwise if anything was removed the
bbox is recomputed from the remaining lines.  Returns the new block and
the number of lines actually removed. -/
def Block.remove_lines (b : Block) (req : List Line) : Block × ℕ :=
  let lines' := removeEach b.lines req
  let removed := b.lines.length - lines'.length
  match lines' with
  | [] => ({ b with lines := lines' }, removed)
  | l :: rest =>
    if removed ≠ 0 then
      ({ b with
          lines := lines',
          bbox := ⟨((rest.map fun x => x.bbox.llx).foldl min l.bbox.llx),
                   ((rest.map fun x => x.bbox.lly).foldl min l.bbox.lly),
                   ((rest.map fun x => x.bbox.urx).foldl max l.bbox.urx),
                   ((rest.map fun x => x.bbox.ury).foldl max l.bbox.ury)⟩ },
       removed)
    else ({ b with lines := lines' }, removed)

structure Page where
  page_index : ℕ
  blocks : List Block
  deriving DecidableEq

def Page.remove_lines (p : Page) (req : List Line) : Page × ℕ :=
  let res := p.blocks.map (fun b => b.remove_lines req)
  ({ p with blocks := res.map Prod.fst }, (res.map Prod.snd).sum)

structure Document where
  id : List Char
  pages : List Page
  deriving DecidableEq

def Document.remove_lines (d : Document) (req : List Line) : Document × ℕ :=
  let res := d.pages.map (fun p => p.remove_lines req)
  ({ d with pages := res.map Prod.fst }, (res.map Prod.snd).sum)

def Document.allLines (d : Document) : List Line :=
  d.pages.flatMap fun p => p.blocks.flatMap Block.lines

/-- `make_pages`: group consecutive blocks by page index. -/
def make_pages : List Block → List Page
  | [] => []
  | b :: rest =>
    match make_pages rest with
    | [] => [⟨b.page_index, [b]⟩]
    | p :: ps =>
      if b.page_index = p.page_index then ⟨p.page_index, b :: p.blocks⟩ :: ps
      else ⟨b.page_index, [b]⟩ :: p :: ps

/-! ## Block revision (`reviseblocks.py`) -/

/-- The two thresholds of `reviseblocks.py` (`args.max_join_relative_gap`
is `None` unless set on the command line; `args.min_split_relative_gap`
defaults to 1.0). -/
structure RevArgs where
  max_join_relative_gap : Option ℚ
  min_split_relative_gap : ℚ
  deriving DecidableEq

def defaultJoinGap : ℚ := 4/5

def defaultSplitGap : ℚ := 1

def can_split (line1 line2 : Line) (gap : ℚ) : Bool :=
  if !(line1.bbox.is_above line2.bbox || line2.bbox.is_above line1.bbox) then
    false
  else
    let font_size := min line1.max_font_size line2.max_font_size
    gap * font_size ≤ line1.bbox.vertical_distance line2.bbox

/-- First splittable adjacent pair of a block (`for i in
range(len(block.lines)-1)`), returning the two block halves exactly as the
source constructs them: the original block keeps the prefix (ids/labels
suffixed, bbox recomputed by `remove_lines`), the new block gets the
suffix (bbox grown from the split line by `add_lines`). -/
def findSplit (b : Block) (gap : ℚ) : Option (Block × Block) :=
  go 0 b.lines
where
  go (i : ℕ) : List Line → Option (Block × Block)
  | prev :: line :: rest =>
    if can_split prev line gap then
      let splitLines := b.lines.drop (i + 1)
      let newBlock : Block :=
        { doc_id := b.doc_id
          page_index := b.page_index
          id := b.id ++ '.' :: ['2']
          bbox := line.bbox
          label := b.label ++ ['b']
          start_line := line.line_num
          end_line := ((b.lines.getLastD line).line_num)
          lines := [] }
      let newBlock := newBlock.add_lines splitLines
      let top := { b with
        id := b.id ++ '.' :: ['1'],
        label := b.label ++ ['t'],
        end_line := prev.line_num }
      some ((top.remove_lines splitLines).1, newBlock)
    else go (i + 1) (line :: rest)
  | _ => none

/-- Total number of adjacent line pairs on a page (termination measure for
the split fixpoint). -/
def pairCount (bs : List Block) : ℕ := (bs.map fun b => b.lines.length - 1).sum

theorem add_lines_lines (b : Block) (ls : List Line) :
    (b.add_lines ls).lines = b.lines ++ ls := by
  induction ls generalizing b with
  | nil => simp [Block.add_lines]
  | cons l t ih =>
    show ((b.add_line l).add_lines t).lines = _
    rw [ih]
    simp [Block.add_line]

theorem remove_lines_lines (b : Block) (req : List Line) :
    (b.remove_lines req).1.lines = removeEach b.lines req := by
  unfold Block.remove_lines
  dsimp only
  split
  · rfl
  · split <;> rfl

theorem removeEach_length_sublist (ys : List Line) :
    ∀ xs : List Line, ys.Sublist xs →
      (removeEach xs ys).length = xs.length - ys.length := by
  induction ys with
  | nil => intro xs _; simp [removeEach]
  | cons y t ih =>
    intro xs h
    have hy : y ∈ xs := h.subset (by simp)
    have ht : t.Sublist (xs.erase y) := by
      have := h.erase y
      rwa [List.erase_cons_head] at this
    show (removeEach (xs.erase y) t).length = _
    rw [ih (xs.erase y) ht, List.length_erase_of_mem hy]
    have h2 : t.length ≤ (xs.erase y).length := ht.length_le
    rw [List.length_erase_of_mem hy] at h2
    have h3 : 0 < xs.length := List.length_pos_of_mem hy
    simp only [List.length_cons]
    omega

theorem removeEach_append_self (suf : List Line) :
    ∀ pre : List Line, (pre ++ suf).Nodup → removeEach (pre ++ suf) suf = pre := by
  induction suf with
  | nil => intro pre _; simp [removeEach]
  | cons s t ih =>
    intro pre hnd
    have hs : s ∉ pre := fun hmem =>
      (List.disjoint_of_nodup_append hnd) hmem (by simp)
    show removeEach ((pre ++ s :: t).erase s) t = pre
    rw [List.erase_append_right _ hs, List.erase_cons_head]
    exact ih pre (by
      have : (pre ++ t).Sublist (pre ++ s :: t) := by
        apply List.Sublist.append_left
        exact List.sublist_cons_self s t
      exact this.nodup hnd)

/-- Spec of the scan inside `findSplit`. -/
theorem findSplit_go_spec (b : Block) (gap : ℚ) :
    ∀ (ls : List Line) (i : ℕ) (b1 b2 : Block),
      findSplit.go b gap i ls = some (b1, b2) →
      ∃ j, i ≤ j ∧ j + 2 ≤ i + ls.length ∧
        b2.lines = b.lines.drop (j + 1) ∧
        b1.lines = removeEach b.lines (b.lines.drop (j + 1))
  | [], i, b1, b2 => by simp [findSplit.go]
  | [x], i, b1, b2 => by simp [findSplit.go]
  | prev :: line :: rest, i, b1, b2 => by
    rw [findSplit.go]
    by_cases hc : can_split prev line gap = true
    · simp only [hc, if_true, Option.some.injEq, Prod.mk.injEq]
      rintro ⟨h1, h2⟩
      refine ⟨i, le_refl i, by simp only [List.length_cons]; omega, ?_, ?_⟩
      · rw [← h2, add_lines_lines]
        simp
      · rw [← h1, remove_lines_lines]
    · simp only [hc, if_false]
      intro h
      obtain ⟨j, hj1, hj2, hj3, hj4⟩ :=
        findSplit_go_spec b gap (line :: rest) (i + 1) b1 b2 h
      refine ⟨j, by omega, ?_, hj3, hj4⟩
      simp at hj2 ⊢
      omega

theorem findSplit_spec {b : Block} {gap : ℚ} {b1 b2 : Block}
    (h : findSplit b gap = some (b1, b2)) :
    ∃ j, j + 2 ≤ b.lines.length ∧
      b2.lines = b.lines.drop (j + 1) ∧
      b1.lines = removeEach b.lines (b.lines.drop (j + 1)) := by
  obtain ⟨j, _, hj2, hj3, hj4⟩ := findSplit_go_spec b gap b.lines 0 b1 b2 h
  exact ⟨j, by omega, hj3, hj4⟩

theorem findSplit_lengths {b : Block} {gap : ℚ} {b1 b2 : Block}
    (h : findSplit b gap = some (b1, b2)) :
    b2.lines.length + 1 ≤ b.lines.length ∧ 1 ≤ b2.lines.length ∧
    b1.lines.length + b2.lines.length = b.lines.length := by
  obtain ⟨j, hj, h2, h1⟩ := findSplit_spec h
  have hdrop : (b.lines.drop (j + 1)).length = b.lines.length - (j + 1) := by
    simp
  have hsub : (b.lines.drop (j + 1)).Sublist b.lines := List.drop_sublist _ _
  have hrem := removeEach_length_sublist (b.lines.drop (j + 1)) b.lines hsub
  rw [h1, hrem, hdrop]
  rw [h2, hdrop]
  omega

/-- One pass of the `for block_idx, block in enumerate(page.blocks)` loop
of `split_page_blocks`.  After a split the Python iteration continues at
index `block_idx + 1`, which is the freshly inserted suffix block, so the
pass recurses on `b2 :: rest`; the returned flag is `revised`.  The fuel
argument (any value `≥ pairCount bs + bs.length` is enough, since each
step decreases that measure) keeps the recursion structural. -/
def splitPass (gap : ℚ) : ℕ → List Block → (List Block × Bool)
  | _, [] => ([], false)
  | 0, bs => (bs, false)
  | fuel + 1, b :: rest =>
    match findSplit b gap with
    | none =>
      let r := splitPass gap fuel rest
      (b :: r.1, r.2)
    | some (b1, b2) =>
      let r := splitPass gap fuel (b2 :: rest)
      (b1 :: r.1, true)

theorem pairCount_cons (b : Block) (rest : List Block) :
    pairCount (b :: rest) = (b.lines.length - 1) + pairCount rest := by
  simp [pairCount]

/-- With sufficient fuel, a split pass never increases the number of
adjacent pairs, a revising pass strictly decreases it, and a
non-revising pass leaves the block list unchanged. -/
theorem splitPass_spec (gap : ℚ) :
    ∀ (fuel : ℕ) (bs : List Block), pairCount bs + bs.length ≤ fuel →
      pairCount (splitPass gap fuel bs).1 ≤ pairCount bs ∧
      ((splitPass gap fuel bs).2 = true →
        pairCount (splitPass gap fuel bs).1 < pairCount bs) ∧
      ((splitPass gap fuel bs).2 = false → (splitPass gap fuel bs).1 = bs) := by
  intro fuel
  induction fuel with
  | zero =>
    intro bs hb
    cases bs with
    | nil => simp [splitPass]
    | cons x t => simp at hb
  | succ fuel ih =>
    intro bs hb
    cases bs with
    | nil => simp [splitPass]
    | cons b rest =>
      rw [splitPass]
      cases hf : findSplit b gap with
      | none =>
        simp only
        have hrec := ih rest (by
          rw [pairCount_cons] at hb
          simp only [List.length_cons] at hb
          omega)
        rw [pairCount_cons, pairCount_cons]
        refine ⟨by omega, fun ht => by have := hrec.2.1 ht; omega, fun hfalse => by
          rw [hrec.2.2 hfalse]⟩
      | some pair =>
        obtain ⟨b1, b2⟩ := pair
        simp only
        obtain ⟨hle, hpos, hsum⟩ := findSplit_lengths hf
        have hrec := ih (b2 :: rest) (by
          rw [pairCount_cons] at hb ⊢
          simp only [List.length_cons] at hb ⊢
          omega)
        rw [pairCount_cons] at hrec ⊢
        rw [pairCount_cons]
        have h1 : 1 ≤ b1.lines.length := by omega
        refine ⟨by omega, fun _ => by omega, fun hfalse => by simp at hfalse⟩

/-- The `while True` fixpoint of `split_page_blocks`; the counter is
incremented once per revising pass, exactly as `split_count` is.  Each
pass is run with its sufficient fuel; the loop fuel (any value
`> pairCount bs`) dominates the number of revising passes. -/
def splitLoop (gap : ℚ) : ℕ → List Block → ℕ → List Block × ℕ
  | 0, bs, count => (bs, count)
  | fuel + 1, bs, count =>
    if (splitPass gap (pairCount bs + bs.length) bs).2 = true then
      splitLoop gap fuel (splitPass gap (pairCount bs + bs.length) bs).1
        (count + 1)
    else ((splitPass gap (pairCount bs + bs.length) bs).1, count)

/-- `split_page_blocks(page, args)`: returns the revised page and the
number of revising passes. -/
def split_page_blocks (p : Page) (gap : ℚ) : Page × ℕ :=
  let r := splitLoop gap (pairCount p.blocks + 1) p.blocks 0
  ({ p with blocks := r.1 }, r.2)

def compatible_blocks (b1 b2 : Block) : Bool :=
  -- require non-empty
  if b1.lines.length = 0 || b2.lines.length = 0 then false
  -- require consistent font size
  else if !(b1.min_font_size = b1.max_font_size &&
            b2.min_font_size = b2.max_font_size &&
            b1.min_font_size = b2.min_font_size) then false
  -- require consistent left margin
  else if !(b1.min_llx = b1.max_llx && b2.min_llx = b2.max_llx &&
            b1.min_llx = b2.max_llx) then false
  else true

def can_join (b1 b2 : Block) (gap : ℚ) : Bool :=
  if !compatible_blocks b1 b2 then false
  else
    b1.bbox.is_above b2.bbox &&
    b1.bbox.vertical_distance b2.bbox ≤ gap * b1.min_font_size

/-- One scan of the `for i in range(len(page.blocks)-1)` loop of
`join_page_blocks`: merge the first adjacent joinable pair (the earlier
block absorbs the later one's lines via `add_line`) or report `none`. -/
def joinStep (gap : ℚ) : List Block → Option (List Block)
  | b1 :: b2 :: rest =>
    if can_join b1 b2 gap then some ((b2.lines.foldl Block.add_line b1) :: rest)
    else
      match joinStep gap (b2 :: rest) with
      | some r => some (b1 :: r)
      | none => none
  | _ => none

theorem joinStep_length (gap : ℚ) :
    ∀ bs bs' : List Block, joinStep gap bs = some bs' →
      bs'.length + 1 = bs.length
  | b1 :: b2 :: rest, bs' => by
    rw [joinStep]
    split
    · intro h
      cases h
      simp
    · split
      · rename_i r hr
        intro h
        cases h
        have := joinStep_length gap (b2 :: rest) r hr
        simp at this ⊢
        omega
      · intro h
        cases h
  | [], bs' => by simp [joinStep]
  | [b], bs' => by simp [joinStep]

/-- The `while True` fixpoint of `join_page_blocks`; each merge is one
`join_count` increment.  Fuel: any value `> bs.length` dominates the
merge count, since every merge shortens the block list. -/
def joinLoop (gap : ℚ) : ℕ → List Block → ℕ → List Block × ℕ
  | 0, bs, count => (bs, count)
  | fuel + 1, bs, count =>
    match joinStep gap bs with
    | none => (bs, count)
    | some bs' => joinLoop gap fuel bs' (count + 1)

/-- `join_page_blocks(page, args)`: the revised page and the number of
merges performed. -/
def join_page_blocks (p : Page) (gap : ℚ) : Page × ℕ :=
  let r := joinLoop gap (p.blocks.length + 1) p.blocks 0
  ({ p with blocks := r.1 }, r.2)

/-- `compatible_lines` (the first argument models Python's `prev_line`,
which may be `None`). -/
def compatible_lines (l1? : Option Line) (l2 : Line) : Bool :=
  match l1? with
  | none => false
  | some l1 =>
    -- require consistent font size
    if !(l1.min_font_size = l1.max_font_size &&
         l2.min_font_size = l2.max_font_size &&
         l1.min_font_size = l2.min_font_size) then false
    -- require consistent left margin
    else l1.bbox.llx = l2.bbox.llx

/-- `collections.Counter` update, keeping first-insertion order. -/
def bumpCounter (m : List (ℚ × ℕ)) (k : ℚ) : List (ℚ × ℕ) :=
  match m with
  | [] => [(k, 1)]
  | (k', c) :: t => if k' = k then (k', c + 1) :: t else (k', c) :: bumpCounter t k

/-- `Counter.most_common(1)[0][0]`: the first-inserted key of maximal
count (`heapq.nlargest(1)` reduces to `max`, which keeps the first
maximum in iteration = insertion order). -/
def counterMostCommon : List (ℚ × ℕ) → Option ℚ
  | [] => none
  | (k, c) :: t => some (go k c t)
where
  go (k : ℚ) (c : ℕ) : List (ℚ × ℕ) → ℚ
  | [] => k
  | (k', c') :: t => if c < c' then go k' c' t else go k c t

/-- State of the `most_common_prose_line_gap` scan: the counter and the
previous line of the current page. -/
def gapScanLine (r : ℚ) (st : List (ℚ × ℕ) × Option Line) (line : Line) :
    List (ℚ × ℕ) × Option Line :=
  let (counter, prev) := st
  if compatible_lines prev line &&
      (match prev with | none => false | some p => p.bbox.is_above line.bbox) then
    match prev with
    | some p =>
      let distance := p.bbox.vertical_distance line.bbox
      let relative_gap := roundTo (distance / line.max_font_size) r
      (bumpCounter counter relative_gap, some line)
    | none => (counter, some line)
  else (counter, some line)

/-- `most_common_prose_line_gap(document, args, roundto=0.1)`.  (Despite
its name and docstring, the source never consults the line classifier;
see the C3 analysis below.) -/
def most_common_prose_line_gap (d : Document) (r : ℚ := 1/10) : ℚ :=
  let counter := d.pages.foldl (fun acc page =>
    ((page.blocks.flatMap Block.lines).foldl (gapScanLine r) (acc, none)).1) []
  let total := (counter.map Prod.snd).sum
  if total < 10 then defaultJoinGap
  else
    match counterMostCommon counter with
    | none => defaultJoinGap    -- unreachable: total ≥ 10 forces entries
    | some m => if m < defaultJoinGap then defaultJoinGap else m

/-- The `max_join_relative_gap` actually used by
`revise_document_blocks`: the configured value, or the auto-calibrated
one (`gap + roundto/2` capped at `min_split_relative_gap - roundto/2`). -/
def effective_join_gap (d : Document) (args : RevArgs) : ℚ :=
  match args.max_join_relative_gap with
  | some g => g
  | none =>
    min (most_common_prose_line_gap d + (1/10) / 2)
      (args.min_split_relative_gap - (1/10) / 2)

/-- Split-then-join revision of one page (the per-page body of
`revise_document_blocks`). -/
def revise_page_blocks (p : Page) (splitGap joinGap : ℚ) : Page × ℕ × ℕ :=
  let s := split_page_blocks p splitGap
  let j := join_page_blocks s.1 joinGap
  (j.1, s.2, j.2)

/-- `revise_document_blocks(document, args)`: calibrate the join gap if
unset, then split and join every page; returns the revised document and
the split/join counts. -/
def revise_document_blocks (d : Document) (args : RevArgs) :
    Document × ℕ × ℕ :=
  let joinGap := effective_join_gap d args
  let res := d.pages.map fun p => revise_page_blocks p args.min_split_relative_gap joinGap
  (⟨d.id, res.map (·.1)⟩, (res.map (·.2.1)).sum, (res.map (·.2.2)).sum)

/-! ## Freki parsing and serialization (`loadfreki.py`)

The parser mirrors the three regexes `BLOCK_PREAMBLE_RE`, `BLOCK_LINE_RE`
and `FONT_RE` as deterministic scanners over `List Char`, including the
backtracking behaviour of the non-greedy groups (`fonts=(.+?)`,
`bbox=(\S+?)`, the optional `iscore` group, and `FONT_RE`'s optional tag
and non-greedy name). -/

/-- ASCII `[A-Z]` (the font subset tag class). -/
def isTagCh (c : Char) : Bool := 65 ≤ c.toNat && c.toNat ≤ 90

def hasPrefixL : List Char → List Char → Bool
  | [], _ => true
  | _ :: _, [] => false
  | p :: ps, c :: cs => p = c && hasPrefixL ps cs

/-- Strip a literal prefix. -/
def dropPre (pat cs : List Char) : Option (List Char) :=
  if hasPrefixL pat cs then some (cs.drop pat.length) else none

/-- `str.split(sep)` for a single-character separator. -/
def splitOnChar (sep : Char) : List Char → List (List Char)
  | [] => [[]]
  | c :: t =>
    let r := splitOnChar sep t
    if c = sep then [] :: r
    else
      match r with
      | h :: t' => (c :: h) :: t'
      | [] => [[c]]

/-- A `\S+`-shaped token (nonempty, no whitespace). -/
def isToken (cs : List Char) : Bool := !cs.isEmpty && cs.all (fun c => !isPySpace c)

/-- A `\d+`-shaped token. -/
def isDigits (cs : List Char) : Bool := !cs.isEmpty && cs.all isDigitCh

/-- The seven fields of a block preamble, as matched by
`BLOCK_PREAMBLE_RE` (all values still strings). -/
structure PreRec where
  doc_id : List Char
  page : List Char
  block_id : List Char
  bboxStr : List Char
  label : List Char
  startLine : List Char
  endLine : List Char
  deriving DecidableEq

/-- `BLOCK_PREAMBLE_RE.match(line)`: since every group is `\S`-only and
the literals are single spaces, a line matches iff it splits on `' '`
into exactly seven tokens of the right shapes. -/
def parse_preamble (cs : List Char) : Option PreRec :=
  match splitOnChar ' ' cs with
  | [t0, t1, t2, t3, t4, t5, t6] =>
    match dropPre "doc_id=".toList t0, dropPre "page=".toList t1,
        dropPre "block_id=".toList t2, dropPre "bbox=".toList t3,
        dropPre "label=".toList t4 with
    | some d, some pg, some bi, some bx, some lb =>
      if isToken d && isDigits pg && isToken bi && isToken bx &&
          lb.all (fun c => !isPySpace c) && isDigits t5 && isDigits t6 then
        some ⟨d, pg, bi, bx, lb, t5, t6⟩
      else none
    | _, _, _, _, _ => none
  | _ => none

/-- `\d+\.\d+` (greedy), returning the parsed value and the remainder. -/
def scanNum (cs : List Char) : Option (ℚ × List Char) :=
  if cs.takeWhile isDigitCh = [] then none
  else
    match cs.dropWhile isDigitCh with
    | '.' :: t =>
      if t.takeWhile isDigitCh = [] then none
      else
        some ((digitsToNat (cs.takeWhile isDigitCh) : ℚ) +
          (digitsToNat (t.takeWhile isDigitCh) : ℚ) /
            (10 : ℚ) ^ (t.takeWhile isDigitCh).length,
          t.dropWhile isDigitCh)
    | _ => none

/-- `(\s*):(.*)$`: the whitespace-then-colon reading of the record tail. -/
def parseTailNoIscore (cs : List Char) : Option (Option ℚ × List Char × List Char) :=
  match cs.dropWhile isPySpace with
  | ':' :: text => some (none, cs.takeWhile isPySpace, text)
  | _ => none

/-- The tail of `BLOCK_LINE_RE` after the bbox group:
`(?: iscore=(\d+\.\d+))?(\s*):(.*)$` (the optional group is attempted
first; on its failure the whitespace-then-colon reading is tried). -/
def parseTail (cs : List Char) : Option (Option ℚ × List Char × List Char) :=
  match dropPre " iscore=".toList cs with
  | some r1 =>
    match scanNum r1 with
    | some (q, r2) =>
      match r2.dropWhile isPySpace with
      | ':' :: text => some (some q, r2.takeWhile isPySpace, text)
      | _ => parseTailNoIscore cs
    | none => parseTailNoIscore cs
  | none => parseTailNoIscore cs

/-- The `bbox=(\S+?)` group: expand one (non-whitespace) character at a
time until the tail parses. -/
def bboxScan : List Char → List Char → Option (List Char × Option ℚ × List Char × List Char)
  | _, [] => none
  | revAcc, c :: t =>
    if isPySpace c then none
    else
      match parseTail t with
      | some (isc, blanks, text) => some ((c :: revAcc).reverse, isc, blanks, text)
      | none => bboxScan (c :: revAcc) t

/-- The `fonts=(.+?) bbox=` split: the shortest nonempty fonts group such
that the remainder (bbox onwards) parses; on failure the next
`" bbox="` occurrence is tried, as regex backtracking does. -/
def fontsScan : List Char → List Char →
    Option (List Char × List Char × Option ℚ × List Char × List Char)
  | _, [] => none
  | revAcc, c :: t =>
    match dropPre " bbox=".toList t with
    | some r =>
      match bboxScan [] r with
      | some (bx, isc, blanks, text) => some ((c :: revAcc).reverse, bx, isc, blanks, text)
      | none => fontsScan (c :: revAcc) t
    | none => fontsScan (c :: revAcc) t

/-- The six groups of `BLOCK_LINE_RE`. -/
structure LineRec where
  num : List Char
  fontsStr : List Char
  bboxStr : List Char
  isc : Option ℚ
  blanks : List Char
  text : List Char
  deriving DecidableEq

/-- `BLOCK_LINE_RE.match(line)`. -/
def parse_block_line (cs : List Char) : Option LineRec :=
  match dropPre "line=".toList cs with
  | none => none
  | some r1 =>
    if r1.takeWhile isDigitCh = [] then none
    else
      match dropPre " fonts=".toList (r1.dropWhile isDigitCh) with
      | none => none
      | some r2 =>
        match fontsScan [] r2 with
        | none => none
        | some (fs, bx, isc, blanks, text) =>
          some ⟨r1.takeWhile isDigitCh, fs, bx, isc, blanks, text⟩

/-- `(.+?)-(\d+\.\d+),?` — the name/size part of one `FONT_RE` match:
shortest nonempty name followed by `-`, a number, and an optional comma
(consumed). -/
def matchNameSize : List Char → List Char → Option (List Char × ℚ × List Char)
  | _, [] => none
  | revAcc, c :: t =>
    if t.head? = some '-' then
      match scanNum t.tail with
      | some (q, rest) =>
        some ((c :: revAcc).reverse, q,
          if rest.head? = some ',' then rest.tail else rest)
      | none => matchNameSize (c :: revAcc) t
    else matchNameSize (c :: revAcc) t

/-- One `FONT_RE` match attempt at the current position (the optional
6-uppercase-letter tag is tried first, as the regex engine does). -/
def matchFontAt (cs : List Char) : Option (Font × List Char) :=
  if (cs.take 6).length = 6 && (cs.take 6).all isTagCh &&
      (cs.drop 6).head? = some '+' then
    match matchNameSize [] (cs.drop 7) with
    | some (n, q, rest) => some (⟨cs.take 6, n, q⟩, rest)
    | none =>
      match matchNameSize [] cs with
      | some (n, q, rest) => some (⟨[], n, q⟩, rest)
      | none => none
  else
    match matchNameSize [] cs with
    | some (n, q, rest) => some (⟨[], n, q⟩, rest)
    | none => none

theorem scanNum_length {cs : List Char} {q : ℚ} {rest : List Char}
    (h : scanNum cs = some (q, rest)) : rest.length < cs.length := by
  unfold scanNum at h
  by_cases hipe : cs.takeWhile isDigitCh = []
  · simp [hipe] at h
  · simp only [hipe, if_false] at h
    split at h
    · rename_i t heq
      by_cases hfp : t.takeWhile isDigitCh = []
      · simp [hfp] at h
      · simp only [hfp, if_false, Option.some.injEq, Prod.mk.injEq] at h
        have hrest : rest.length ≤ t.length := by
          rw [← h.2]
          exact List.Sublist.length_le (List.dropWhile_sublist _)
        have hsum := congrArg List.length
          (@List.takeWhile_append_dropWhile _ isDigitCh cs)
        rw [List.length_append] at hsum
        rw [heq] at hsum
        have hipl : 0 < (cs.takeWhile isDigitCh).length :=
          List.length_pos.2 hipe
        simp only [List.length_cons] at hsum
        omega
    · simp at h

theorem matchNameSize_length :
    ∀ {cs revAcc : List Char} {n : List Char} {q : ℚ} {rest : List Char},
      matchNameSize revAcc cs = some (n, q, rest) → rest.length < cs.length
  | [], _, _, _, _ => by simp [matchNameSize]
  | c :: t, revAcc, n, q, rest => by
    rw [matchNameSize]
    by_cases hh : t.head? = some '-'
    · rw [if_pos hh]
      cases hs : scanNum t.tail with
      | none =>
        intro h
        have := matchNameSize_length h
        simp only [List.length_cons]
        omega
      | some p =>
        obtain ⟨q', r'⟩ := p
        simp only [Option.some.injEq, Prod.mk.injEq]
        rintro ⟨-, -, rfl⟩
        have h1 : r'.length < t.tail.length := scanNum_length hs
        have h2 : t.tail.length ≤ t.length := by cases t <;> simp
        have h3 : (if r'.head? = some ',' then r'.tail else r').length ≤
            r'.length := by
          by_cases hr : r'.head? = some ','
          · rw [if_pos hr]
            cases r' <;> simp
          · rw [if_neg hr]
        simp only [List.length_cons]
        omega
    · rw [if_neg hh]
      intro h
      have := matchNameSize_length h
      simp only [List.length_cons]
      omega

theorem matchFontAt_length {cs : List Char} {f : Font} {rest : List Char}
    (h : matchFontAt cs = some (f, rest)) : rest.length < cs.length := by
  unfold matchFontAt at h
  split at h
  · rename_i hguard
    cases hm : matchNameSize [] (cs.drop 7) with
    | some p =>
      obtain ⟨n, q, r⟩ := p
      rw [hm] at h
      simp only [Option.some.injEq, Prod.mk.injEq] at h
      obtain ⟨-, rfl⟩ := h
      have h1 := matchNameSize_length hm
      have h2 : (cs.drop 7).length ≤ cs.length := by
        simp
      omega
    | none =>
      rw [hm] at h
      cases hm2 : matchNameSize [] cs with
      | some p =>
        obtain ⟨n, q, r⟩ := p
        rw [hm2] at h
        simp only [Option.some.injEq, Prod.mk.injEq] at h
        obtain ⟨-, rfl⟩ := h
        exact matchNameSize_length hm2
      | none => rw [hm2] at h; simp at h
  · cases hm2 : matchNameSize [] cs with
    | some p =>
      obtain ⟨n, q, r⟩ := p
      rw [hm2] at h
      simp only [Option.some.injEq, Prod.mk.injEq] at h
      obtain ⟨-, rfl⟩ := h
      exact matchNameSize_length hm2
    | none => rw [hm2] at h; simp at h

/-- `FONT_RE.findall(font_string)` (advancing one character after a
failed match attempt, as `findall` scans for the next match start).
Fuelled: every step consumes at least one character
(`matchFontAt_length`), so the string length is sufficient fuel. -/
def parseFontsAux : ℕ → List Char → List Font
  | 0, _ => []
  | _, [] => []
  | fuel + 1, c :: t =>
    match matchFontAt (c :: t) with
    | some (f, rest) => f :: parseFontsAux fuel rest
    | none => parseFontsAux fuel t

def parseFonts (cs : List Char) : List Font := parseFontsAux cs.length cs

/-- `parse_bbox`: the literal `None,None,None,None` raises `EmptyBBox`;
four comma-separated floats succeed; anything else is a `ValueError`. -/
inductive PErr where
  | valueError
  | emptyBBox
  | attrError
  deriving DecidableEq

def parse_bbox (cs : List Char) : Except PErr BBox :=
  if cs = "None,None,None,None".toList then .error .emptyBBox
  else
    match splitOnChar ',' cs with
    | [a, b, c, d] =>
      match parseFloat a, parseFloat b, parseFloat c, parseFloat d with
      | some la, some lb, some lc, some ld => .ok ⟨la, lb, lc, ld⟩
      | _, _, _, _ => .error .valueError
    | _ => .error .valueError

/-- `Block.from_freki` applied to a line already known to match
`BLOCK_PREAMBLE_RE` (the enclosing loop checks the regex first). -/
def block_from_freki (cs : List Char) : Except PErr Block :=
  match parse_preamble cs with
  | none => .error .valueError
  | some r =>
    match parse_bbox r.bboxStr with
    | .error e => .error e
    | .ok bbox =>
      .ok ⟨r.doc_id, digitsToNat r.page, r.block_id, bbox, r.label,
        r.startLine, r.endLine, []⟩

/-- `Line.from_freki` applied to a line already known to match
`BLOCK_LINE_RE`. -/
def line_from_freki (cs : List Char) : Except PErr Line :=
  match parse_block_line cs with
  | none => .error .valueError
  | some r =>
    match parse_bbox r.bboxStr with
    | .error e => .error e
    | .ok bbox => .ok ⟨r.num, parseFonts r.fontsStr, bbox, r.isc, r.blanks, r.text⟩

/-- `current_block.add_line(...)` appends to the most recently parsed
block, which is the last element of the accumulator. -/
def appendToLast : List Block → Line → List Block
  | [], _ => []
  | [b], l => [b.add_line l]
  | b :: rest, l => b :: appendToLast rest l

/-- The record loop of `load_freki_document`.  The boolean tracks whether
`current_block` is set (it is then always the last accumulated block).
A content line with `current_block = None` raises `AttributeError`
(`'NoneType' object has no attribute 'add_line'`) — modelled as
`.attrError`, distinct from the `ValueError`s that `main` catches.  A
preamble whose bbox is the `None,...` literal is skipped (`EmptyBBox`
caught, `current_block` untouched); an `EmptyBBox` raised while parsing a
content line's bbox propagates uncaught. -/
def loadLoop : List (List Char) → List Block → Bool → Except PErr (List Block)
  | [], blocks, _ => .ok blocks
  | ln :: rest, blocks, active =>
    if (parse_preamble ln).isSome then
      match block_from_freki ln with
      | .ok b => loadLoop rest (blocks ++ [b]) true
      | .error .emptyBBox => loadLoop rest blocks active
      | .error e => .error e
    else if (parse_block_line ln).isSome then
      match line_from_freki ln with
      | .ok l =>
        if active then loadLoop rest (appendToLast blocks l) true
        else .error .attrError
      | .error e => .error e
    else if ln = [] then loadLoop rest blocks false
    else .error .valueError

/-- `load_freki_document`: parse all records, then require at least one
block and a unique `doc_id`. -/
def load_freki_document (lns : List (List Char)) : Except PErr Document :=
  match loadLoop lns [] false with
  | .error e => .error e
  | .ok blocks =>
    match blocks with
    | [] => .error .valueError
    | b :: rest =>
      if rest.all (fun x => x.doc_id = b.doc_id) then
        .ok ⟨b.doc_id, make_pages (b :: rest)⟩
      else .error .valueError

/-! ### Serialization -/

/-- `','.join(font.to_freki() for font in fonts)`. -/
def renderFonts : List Font → List Char
  | [] => []
  | [f] => f.to_freki
  | f :: rest => f.to_freki ++ ',' :: renderFonts rest

/-- `Line.to_freki`; `blockLineCount` is `len(self.block.lines)` (the
score and padding are dropped entirely for singleton blocks). -/
def Line.to_freki (l : Line) (blockLineCount : ℕ) : List Char :=
  "line=".toList ++ l.line_num ++ " fonts=".toList ++ renderFonts l.fonts ++
    " bbox=".toList ++ l.bbox.to_freki ++
    (if blockLineCount = 1 then []
     else
       match l.iscore with
       | some q => " iscore=".toList ++ renderFixed2 q ++ l.blanks
       | none => l.blanks) ++
    ':' :: l.text

def Block.preamble_to_freki (b : Block) : List Char :=
  "doc_id=".toList ++ b.doc_id ++ " page=".toList ++ ntoDigits b.page_index ++
    " block_id=".toList ++ b.id ++ " bbox=".toList ++ b.bbox.to_freki ++
    " label=".toList ++ b.label ++ ' ' :: b.start_line ++ ' ' :: b.end_line

/-- `Block.to_freki` as a list of lines (the trailing `''` entry is the
blank separator line). -/
def Block.to_freki_lines (b : Block) : List (List Char) :=
  b.preamble_to_freki :: b.lines.map (fun l => l.to_freki b.lines.length) ++ [[]]

def Page.to_freki_lines (p : Page) : List (List Char) :=
  p.blocks.flatMap Block.to_freki_lines

/-- `Document.to_freki` as a list of lines.  The source builds the string
by nested `'\n'.join`s; since every block contributes at least two lines
(preamble and the blank separator), that string is exactly these lines
joined by `'\n'` for any document whose pages are nonempty — which holds
for every parsed document, `make_pages` never creating an empty page. -/
def Document.to_freki_lines (d : Document) : List (List Char) :=
  d.pages.flatMap Page.to_freki_lines

/-- The serialized text itself. -/
def Document.to_freki (d : Document) : List Char :=
  List.intercalate ['\n'] d.to_freki_lines

/-- The `for fn in args.freki` loop of `main`: a `ValueError` from
loading is logged and the batch continues; any other exception
propagates and kills the whole batch (`.error`).  Outputs are the
serialized documents. -/
def mainLoad : List (List (List Char)) → Except PErr (List (List (List Char)))
  | [] => .ok []
  | f :: fs =>
    match load_freki_document f with
    | .ok d =>
      match mainLoad fs with
      | .ok outs => .ok (d.to_freki_lines :: outs)
      | .error e => .error e
    | .error .valueError => mainLoad fs
    | .error e => .error e

/-! ## Page-number sequence recovery (`filterpagenumbers.py`) -/

/-- A `PageNumberCandidate`; `line` stands for the candidate's source
`Line` object (only its identity matters to the disambiguation engine, so
it is represented by an index). -/
structure PageNumberCandidate where
  page_index : ℕ
  number : ℕ
  shape : List Char
  line : ℕ
  deriving DecidableEq

/-- `PageNumberCandidate.__lt__`: both the page index and the number must
strictly increase. -/
def candLt (a b : PageNumberCandidate) : Bool :=
  a.page_index < b.page_index && a.number < b.number

/-- The severity the engine logs at. -/
inductive LogSeverity where
  | error | warning
  deriving DecidableEq

/-- `candidates_by_index_and_number`: group the candidates by their
`(page_index, number)` key, in insertion order (`defaultdict(list)`). -/
def candidateMap (cands : List PageNumberCandidate) :
    List ((ℕ × ℕ) × List PageNumberCandidate) :=
  cands.foldl (fun m c => bump m ((c.page_index, c.number)) c) []
where
  bump (m : List ((ℕ × ℕ) × List PageNumberCandidate)) (k : ℕ × ℕ)
      (c : PageNumberCandidate) : List ((ℕ × ℕ) × List PageNumberCandidate) :=
    match m with
    | [] => [(k, [c])]
    | (k', l) :: t => if k' = k then (k', l ++ [c]) :: t else (k', l) :: bump t k c

def mapLookup (m : List ((ℕ × ℕ) × List PageNumberCandidate)) (k : ℕ × ℕ) :
    List PageNumberCandidate :=
  match m with
  | [] => []
  | (k', l) :: t => if k' = k then l else mapLookup t k

/-- `_subsequence_count`: the product of the per-position candidate-list
sizes. -/
def subsequenceCount (seq : List (ℕ × ℕ))
    (m : List ((ℕ × ℕ) × List PageNumberCandidate)) : ℕ :=
  match seq with
  | [] => 1
  | k :: rest => (mapLookup m k).length * subsequenceCount rest m

/-- `_subsequences`: the full cross-product, one chosen candidate per
position, in enumeration order. -/
def subsequences (seq : List (ℕ × ℕ))
    (m : List ((ℕ × ℕ) × List PageNumberCandidate)) :
    List (List PageNumberCandidate) :=
  match seq with
  | [] => [[]]
  | k :: rest =>
    (mapLookup m k).flatMap fun c => (subsequences rest m).map fun s => c :: s

/-- `candidate_sequences(sequence, candidates, docid)`: with the product
over 1,000,000 return nothing (logged as an error, no enumeration);
over 1,000 enumerate with a warning; otherwise enumerate silently. -/
def candidate_sequences (seq : List (ℕ × ℕ))
    (cands : List PageNumberCandidate) :
    List (List PageNumberCandidate) × Option LogSeverity :=
  if subsequenceCount seq (candidateMap cands) > 1000000 then
    ([], some .error)
  else if subsequenceCount seq (candidateMap cands) > 1000 then
    (subsequences seq (candidateMap cands), some .warning)
  else
    (subsequences seq (candidateMap cands), none)

/-- The selection step of `find_page_number_lines` (lines 170–183): an
empty enumeration yields no lines; otherwise the first sequence in
enumeration order is used, even when several exist. -/
def selectSequenceLines (seqs : List (List PageNumberCandidate)) : List ℕ :=
  match seqs with
  | [] => []
  | s :: _ => s.map PageNumberCandidate.line

/-! ### Canonical-form round trip (C1 amended): generic string lemmas -/

theorem takeWhile_pred_append (p : Char → Bool) (ds rest : List Char)
    (hd : ∀ c ∈ ds, p c = true)
    (hr : ∀ h : rest ≠ [], p (rest.head h) = false) :
    (ds ++ rest).takeWhile p = ds ∧ (ds ++ rest).dropWhile p = rest := by
  induction ds with
  | nil =>
    cases rest with
    | nil => simp
    | cons c t =>
      have := hr (by simp)
      simp at this
      simp [List.takeWhile, List.dropWhile, this]
  | cons c t ih =>
    have hc : p c = true := hd c (by simp)
    have iht := ih (fun x hx => hd x (by simp [hx]))
    simp [List.takeWhile, List.dropWhile, hc, iht.1, iht.2]

theorem hasPrefixL_append_self (p r : List Char) :
    hasPrefixL p (p ++ r) = true := by
  induction p with
  | nil => rfl
  | cons c t ih => simpa [hasPrefixL] using ih

theorem dropPre_append_self (p r : List Char) :
    dropPre p (p ++ r) = some r := by
  unfold dropPre
  rw [if_pos (hasPrefixL_append_self p r)]
  congr 1
  rw [List.drop_append_eq_append_drop]
  simp

/-- `hasPrefixL p cs` needs only the first `p.length` characters. -/
theorem hasPrefixL_long (p : List Char) :
    ∀ X Y : List Char, p.length ≤ X.length →
      hasPrefixL p (X ++ Y) = hasPrefixL p X := by
  induction p with
  | nil => intro X Y _; rfl
  | cons c t ih =>
    intro X Y hl
    cases X with
    | nil => simp at hl
    | cons x xs =>
      simp only [List.cons_append, hasPrefixL, List.append_eq]
      rw [ih xs Y (by simpa using hl)]

/-- A short prefix-match across a boundary forces the left part to be an
initial segment of the pattern and the rest of the pattern to match
onward. -/
theorem hasPrefixL_short (p : List Char) :
    ∀ X Y : List Char, X.length < p.length →
      hasPrefixL p (X ++ Y) = true →
      X = p.take X.length ∧ hasPrefixL (p.drop X.length) Y = true := by
  induction p with
  | nil => intro X Y h; simp at h
  | cons c t ih =>
    intro X Y hl
    cases X with
    | nil => intro h; exact ⟨rfl, h⟩
    | cons x xs =>
      simp only [List.cons_append, hasPrefixL, Bool.and_eq_true, decide_eq_true_eq]
      rintro ⟨rfl, h2⟩
      obtain ⟨h3, h4⟩ := ih xs Y (by simpa using hl) h2
      refine ⟨?_, ?_⟩
      · simp only [List.length_cons, List.take_succ_cons]
        rw [← h3]
      · simpa using h4

theorem splitOnChar_ne_nil (sep : Char) (cs : List Char) :
    splitOnChar sep cs ≠ [] := by
  cases cs with
  | nil => simp [splitOnChar]
  | cons c t =>
    rw [splitOnChar]
    by_cases h : c = sep
    · simp [h]
    · simp only [h, if_false]
      cases hr : splitOnChar sep t with
      | nil => exact absurd hr (splitOnChar_ne_nil sep t)
      | cons a b => simp

theorem splitOnChar_nosep (sep : Char) :
    ∀ cs : List Char, (∀ c ∈ cs, c ≠ sep) → splitOnChar sep cs = [cs] := by
  intro cs
  induction cs with
  | nil => intro _; rfl
  | cons c t ih =>
    intro h
    rw [splitOnChar]
    rw [if_neg (h c (by simp))]
    rw [ih (fun x hx => h x (by simp [hx]))]

theorem splitOnChar_append_sep (sep : Char) :
    ∀ a b : List Char, (∀ c ∈ a, c ≠ sep) →
      splitOnChar sep (a ++ sep :: b) = a :: splitOnChar sep b := by
  intro a
  induction a with
  | nil =>
    intro b _
    simp [splitOnChar]
  | cons c t ih =>
    intro b h
    simp only [List.cons_append]
    rw [splitOnChar]
    rw [if_neg (h c (by simp))]
    rw [ih b (fun x hx => h x (by simp [hx]))]

/-- Characters of `renderPos` are digits or the decimal point. -/
theorem renderPos_chars (q : ℚ) :
    ∀ c ∈ renderPos q, isDigitCh c = true ∨ c = '.' := by
  intro c hc
  unfold renderPos at hc
  rcases List.mem_append.1 hc with h1 | h1
  · exact Or.inl (ntoDigits_all_digit _ c h1)
  · rcases List.mem_cons.1 h1 with rfl | h2
    · exact Or.inr rfl
    · rcases List.mem_append.1 h2 with h3 | h3
      · rw [List.eq_of_mem_replicate h3]
        exact Or.inl (by decide)
      · exact Or.inl (ntoDigits_all_digit _ c h3)

theorem renderFloat_chars (q : ℚ) :
    ∀ c ∈ renderFloat q, isDigitCh c = true ∨ c = '.' ∨ c = '-' := by
  intro c hc
  unfold renderFloat at hc
  by_cases h : q < 0
  · rw [if_pos h] at hc
    rcases List.mem_cons.1 hc with rfl | h2
    · exact Or.inr (Or.inr rfl)
    · rcases renderPos_chars _ c h2 with h3 | h3
      · exact Or.inl h3
      · exact Or.inr (Or.inl h3)
  · rw [if_neg h] at hc
    rcases renderPos_chars _ c hc with h3 | h3
    · exact Or.inl h3
    · exact Or.inr (Or.inl h3)

theorem renderFloat_ne_nil (q : ℚ) : renderFloat q ≠ [] := by
  unfold renderFloat
  by_cases h : q < 0
  · simp [h]
  · rw [if_neg h]
    unfold renderPos
    intro hcon
    exact ntoDigits_ne_nil _ (by
      cases hx : ntoDigits ⌊q⌋.toNat with
      | nil => rfl
      | cons a b => rw [hx] at hcon; simp at hcon)

/-- No character of a rendered float is whitespace, a comma, a colon, or
the letter `N`. -/
theorem renderFloat_char_classes (q : ℚ) :
    ∀ c ∈ renderFloat q, isPySpace c = false ∧ c ≠ ',' ∧ c ≠ ':' ∧ c ≠ 'N' ∧
      c ≠ '\n' := by
  intro c hc
  rcases renderFloat_chars q c hc with h | h | h
  · have hd : '0' ≤ c ∧ c ≤ '9' := by
      simpa [isDigitCh, Bool.and_eq_true, decide_eq_true_eq] using h
    obtain ⟨h1, h2⟩ := hd
    refine ⟨?_, ?_, ?_, ?_, ?_⟩ <;>
      first
        | (simp only [isPySpace]
           have v1 : 48 ≤ c.toNat := h1
           have v2 : c.toNat ≤ 57 := h2
           simp only [Bool.or_eq_false_iff, Bool.and_eq_false_iff,
             decide_eq_false_iff_not]
           omega)
        | (rintro rfl; revert h1 h2; decide)
  · subst h; exact ⟨by decide, by decide, by decide, by decide, by decide⟩
  · subst h; exact ⟨by decide, by decide, by decide, by decide, by decide⟩


/-! ### Canonical-form round trip: floats and bboxes -/

/-- `q.den ∣ 10^k` makes `q * 10^k` integral. -/
theorem den_one_of_den_dvd (q : ℚ) (k : ℕ) (h : (q.den : ℕ) ∣ 10 ^ k) :
    (q * (10 : ℚ) ^ k).den = 1 := by
  obtain ⟨m, hm⟩ := h
  have hden0 : (q.den : ℚ) ≠ 0 := by
    exact_mod_cast q.den_pos.ne'
  have heq : q * (10 : ℚ) ^ k = ((q.num * (m : ℤ) : ℤ) : ℚ) := by
    have h10 : ((10 : ℚ)) ^ k = ((10 ^ k : ℕ) : ℚ) := by push_cast; ring
    rw [h10, hm]
    push_cast
    rw [← mul_assoc, Rat.mul_den_eq_num]
  rw [heq, Rat.den_intCast]

/-- Decimal-representable rational: the value shapes the serializer can
produce at all. -/
def fracOK (q : ℚ) : Bool := 10 ^ 18 % q.den = 0

theorem fracOK_hden {q : ℚ} (h : fracOK q = true) :
    ∃ k, 1 ≤ k ∧ k ≤ 60 ∧ (q * (10 : ℚ) ^ k).den = 1 := by
  refine ⟨18, by omega, by omega, ?_⟩
  exact den_one_of_den_dvd q 18
    (Nat.dvd_of_mod_eq_zero (by simpa [fracOK] using h))

theorem isPySpace_not_digit {c : Char} (h : isPySpace c = true) :
    isDigitCh c = false := by
  by_contra hc
  rw [Bool.not_eq_false] at hc
  have hd : '0' ≤ c ∧ c ≤ '9' := by
    simpa [isDigitCh, Bool.and_eq_true, decide_eq_true_eq] using hc
  have v1 : 48 ≤ c.toNat := hd.1
  have v2 : c.toNat ≤ 57 := hd.2
  simp only [isPySpace, Bool.or_eq_true, Bool.and_eq_true,
    decide_eq_true_eq] at h
  omega

theorem ne_space_of_not_pyspace {c : Char} (h : isPySpace c = false) :
    c ≠ ' ' := by
  rintro rfl
  revert h
  decide

theorem isDigitCh_no_space {c : Char} (h : isDigitCh c = true) : c ≠ ' ' := by
  rintro rfl
  revert h
  decide

theorem bbox_to_freki_ne_none (bb : BBox) :
    bb.to_freki ≠ "None,None,None,None".toList := by
  obtain ⟨c, t, hct⟩ := List.exists_cons_of_ne_nil (renderFloat_ne_nil bb.llx)
  have hcN : c ≠ 'N' :=
    (renderFloat_char_classes bb.llx c (by rw [hct]; simp)).2.2.2.1
  intro h
  unfold BBox.to_freki at h
  simp only [List.append_assoc, List.cons_append] at h
  rw [hct] at h
  simp only [List.cons_append] at h
  have hh := congrArg List.head? h
  simp only [List.head?_cons] at hh
  have hN : ("None,None,None,None".toList).head? = some 'N' := rfl
  rw [hN] at hh
  exact hcN (by injection hh)

theorem renderFloat_no_comma (q : ℚ) : ∀ c ∈ renderFloat q, c ≠ ',' :=
  fun c hc => (renderFloat_char_classes q c hc).2.1

theorem splitOnChar_bbox (bb : BBox) :
    splitOnChar ',' bb.to_freki =
      [renderFloat bb.llx, renderFloat bb.lly, renderFloat bb.urx,
        renderFloat bb.ury] := by
  unfold BBox.to_freki
  simp only [List.append_assoc, List.cons_append]
  rw [splitOnChar_append_sep ',' _ _ (renderFloat_no_comma bb.llx)]
  rw [splitOnChar_append_sep ',' _ _ (renderFloat_no_comma bb.lly)]
  rw [splitOnChar_append_sep ',' _ _ (renderFloat_no_comma bb.urx)]
  rw [splitOnChar_nosep ',' _ (renderFloat_no_comma bb.ury)]

/-- All four coordinates decimal-representable. -/
def wfBBoxQ (bb : BBox) : Bool :=
  fracOK bb.llx && fracOK bb.lly && fracOK bb.urx && fracOK bb.ury

theorem parse_bbox_to_freki (bb : BBox) (h : wfBBoxQ bb = true) :
    parse_bbox bb.to_freki = .ok bb := by
  have h4 : fracOK bb.llx = true ∧ fracOK bb.lly = true ∧
      fracOK bb.urx = true ∧ fracOK bb.ury = true := by
    simpa [wfBBoxQ, Bool.and_eq_true, and_assoc] using h
  unfold parse_bbox
  rw [if_neg (bbox_to_freki_ne_none bb)]
  rw [splitOnChar_bbox]
  simp only [parseFloat_renderFloat bb.llx (fracOK_hden h4.1),
    parseFloat_renderFloat bb.lly (fracOK_hden h4.2.1),
    parseFloat_renderFloat bb.urx (fracOK_hden h4.2.2.1),
    parseFloat_renderFloat bb.ury (fracOK_hden h4.2.2.2)]

theorem ntoDigits_no_space (n : ℕ) : ∀ c ∈ ntoDigits n, c ≠ ' ' :=
  fun c hc => isDigitCh_no_space (ntoDigits_all_digit n c hc)

theorem isDigits_ntoDigits (n : ℕ) : isDigits (ntoDigits n) = true := by
  simp only [isDigits, Bool.and_eq_true, Bool.not_eq_true',
    List.isEmpty_eq_false, List.all_eq_true, ne_eq]
  exact ⟨ntoDigits_ne_nil n, fun c hc => ntoDigits_all_digit n c hc⟩

theorem isToken_no_space {cs : List Char} (h : isToken cs = true) :
    ∀ c ∈ cs, c ≠ ' ' := by
  intro c hc
  simp only [isToken, Bool.and_eq_true, List.all_eq_true] at h
  have := h.2 c hc
  exact ne_space_of_not_pyspace (by simpa using this)

theorem isDigits_no_space {cs : List Char} (h : isDigits cs = true) :
    ∀ c ∈ cs, c ≠ ' ' := by
  intro c hc
  simp only [isDigits, Bool.and_eq_true, List.all_eq_true] at h
  exact isDigitCh_no_space (h.2 c hc)

theorem bbox_to_freki_not_pyspace (bb : BBox) :
    ∀ c ∈ bb.to_freki, isPySpace c = false := by
  intro c hc
  unfold BBox.to_freki at hc
  simp only [List.mem_append, List.mem_cons] at hc
  rcases hc with ((h | rfl | h) | rfl | h) | rfl | h
  · exact (renderFloat_char_classes bb.llx c h).1
  · decide
  · exact (renderFloat_char_classes bb.lly c h).1
  · decide
  · exact (renderFloat_char_classes bb.urx c h).1
  · decide
  · exact (renderFloat_char_classes bb.ury c h).1

theorem bbox_to_freki_no_space (bb : BBox) :
    ∀ c ∈ bb.to_freki, c ≠ ' ' :=
  fun c hc => ne_space_of_not_pyspace (bbox_to_freki_not_pyspace bb c hc)

theorem bbox_to_freki_ne_nil (bb : BBox) : bb.to_freki ≠ [] := by
  unfold BBox.to_freki
  intro h
  rcases List.append_eq_nil.1 h with ⟨-, h2⟩
  exact List.cons_ne_nil _ _ h2

theorem isToken_bbox (bb : BBox) : isToken bb.to_freki = true := by
  simp only [isToken, Bool.and_eq_true, Bool.not_eq_true',
    List.isEmpty_eq_false, List.all_eq_true, ne_eq]
  exact ⟨bbox_to_freki_ne_nil bb,
    fun c hc => by simp [bbox_to_freki_not_pyspace bb c hc]⟩

/-! ### Canonical-form round trip: the preamble -/

theorem append_no_space {a b : List Char}
    (ha : ∀ c ∈ a, c ≠ ' ') (hb : ∀ c ∈ b, c ≠ ' ') :
    ∀ c ∈ a ++ b, c ≠ ' ' := by
  intro c hc
  rcases List.mem_append.1 hc with h | h
  · exact ha c h
  · exact hb c h

/-- The preamble render, regrouped to expose the six separator spaces. -/
theorem preamble_shape (b : Block) :
    b.preamble_to_freki =
      ("doc_id=".toList ++ b.doc_id) ++ ' ' ::
      (("page=".toList ++ ntoDigits b.page_index) ++ ' ' ::
      (("block_id=".toList ++ b.id) ++ ' ' ::
      (("bbox=".toList ++ b.bbox.to_freki) ++ ' ' ::
      (("label=".toList ++ b.label) ++ ' ' ::
      (b.start_line ++ ' ' :: b.end_line))))) := by
  unfold Block.preamble_to_freki
  have h1 : " page=".toList = ' ' :: "page=".toList := rfl
  have h2 : " block_id=".toList = ' ' :: "block_id=".toList := rfl
  have h3 : " bbox=".toList = ' ' :: "bbox=".toList := rfl
  have h4 : " label=".toList = ' ' :: "label=".toList := rfl
  rw [h1, h2, h3, h4]
  simp only [List.append_assoc, List.cons_append]

theorem parse_preamble_to_freki (b : Block)
    (hdoc : isToken b.doc_id = true) (hid : isToken b.id = true)
    (hlb : b.label.all (fun c => !isPySpace c) = true)
    (hsl : isDigits b.start_line = true) (hel : isDigits b.end_line = true) :
    parse_preamble b.preamble_to_freki =
      some ⟨b.doc_id, ntoDigits b.page_index, b.id, b.bbox.to_freki, b.label,
        b.start_line, b.end_line⟩ := by
  have hlb' : ∀ c ∈ b.label, c ≠ ' ' := fun c hc =>
    ne_space_of_not_pyspace (by simpa using List.all_eq_true.1 hlb c hc)
  have ht0 : ∀ c ∈ "doc_id=".toList ++ b.doc_id, c ≠ ' ' :=
    append_no_space (by decide) (isToken_no_space hdoc)
  have ht1 : ∀ c ∈ "page=".toList ++ ntoDigits b.page_index, c ≠ ' ' :=
    append_no_space (by decide) (ntoDigits_no_space _)
  have ht2 : ∀ c ∈ "block_id=".toList ++ b.id, c ≠ ' ' :=
    append_no_space (by decide) (isToken_no_space hid)
  have ht3 : ∀ c ∈ "bbox=".toList ++ b.bbox.to_freki, c ≠ ' ' :=
    append_no_space (by decide) (bbox_to_freki_no_space b.bbox)
  have ht4 : ∀ c ∈ "label=".toList ++ b.label, c ≠ ' ' :=
    append_no_space (by decide) hlb'
  rw [preamble_shape]
  unfold parse_preamble
  rw [splitOnChar_append_sep ' ' _ _ ht0,
    splitOnChar_append_sep ' ' _ _ ht1,
    splitOnChar_append_sep ' ' _ _ ht2,
    splitOnChar_append_sep ' ' _ _ ht3,
    splitOnChar_append_sep ' ' _ _ ht4,
    splitOnChar_append_sep ' ' _ _ (isDigits_no_space hsl),
    splitOnChar_nosep ' ' _ (isDigits_no_space hel)]
  dsimp only
  rw [dropPre_append_self, dropPre_append_self, dropPre_append_self,
    dropPre_append_self, dropPre_append_self]
  dsimp only
  rw [if_pos]
  simp only [hdoc, hid, hlb, hsl, hel, isDigits_ntoDigits, isToken_bbox,
    Bool.and_self, Bool.and_true, Bool.true_and]

theorem block_from_freki_to_freki (b : Block)
    (hdoc : isToken b.doc_id = true) (hid : isToken b.id = true)
    (hlb : b.label.all (fun c => !isPySpace c) = true)
    (hsl : isDigits b.start_line = true) (hel : isDigits b.end_line = true)
    (hbb : wfBBoxQ b.bbox = true) :
    block_from_freki b.preamble_to_freki = .ok { b with lines := [] } := by
  unfold block_from_freki
  rw [parse_preamble_to_freki b hdoc hid hlb hsl hel]
  dsimp only
  rw [parse_bbox_to_freki b.bbox hbb]
  dsimp only
  rw [digitsToNat_ntoDigits]

/-! ### Canonical-form round trip: numbers and record tails -/

theorem renderPos_value (q : ℚ) (hq : 0 ≤ q)
    (hden : ∃ k, 1 ≤ k ∧ k ≤ 60 ∧ (q * (10 : ℚ) ^ k).den = 1) :
    (digitsToNat (ntoDigits ⌊q⌋.toNat) : ℚ) +
      (digitsToNat (List.replicate (fracLen q - (ntoDigits (fracNum q)).length) '0' ++
        ntoDigits (fracNum q)) : ℚ) /
      (10 : ℚ) ^ (List.replicate (fracLen q - (ntoDigits (fracNum q)).length) '0' ++
        ntoDigits (fracNum q)).length = q := by
  have hfd : ∀ c ∈ List.replicate (fracLen q - (ntoDigits (fracNum q)).length) '0' ++
      ntoDigits (fracNum q), isDigitCh c = true := by
    intro c hc
    rcases List.mem_append.1 hc with h1 | h1
    · rw [List.eq_of_mem_replicate h1]; decide
    · exact ntoDigits_all_digit _ c h1
  have h1 := parseFloatCore_renderPos 1 q hq hden
  unfold renderPos at h1
  rw [parseFloatCore_plain 1 _ _ (ntoDigits_ne_nil _)
    (ntoDigits_all_digit _) hfd] at h1
  have h2 := Option.some.inj h1
  linarith [h2]

theorem scanNum_renderPos (q : ℚ) (hq : 0 ≤ q)
    (hden : ∃ k, 1 ≤ k ∧ k ≤ 60 ∧ (q * (10 : ℚ) ^ k).den = 1)
    (rest : List Char)
    (hrest : ∀ h : rest ≠ [], isDigitCh (rest.head h) = false) :
    scanNum (renderPos q ++ rest) = some (q, rest) := by
  have hfd : ∀ c ∈ List.replicate (fracLen q - (ntoDigits (fracNum q)).length) '0' ++
      ntoDigits (fracNum q), isDigitCh c = true := by
    intro c hc
    rcases List.mem_append.1 hc with h1 | h1
    · rw [List.eq_of_mem_replicate h1]; decide
    · exact ntoDigits_all_digit _ c h1
  have hshape : renderPos q ++ rest =
      ntoDigits ⌊q⌋.toNat ++ '.' ::
        ((List.replicate (fracLen q - (ntoDigits (fracNum q)).length) '0' ++
          ntoDigits (fracNum q)) ++ rest) := by
    unfold renderPos
    simp only [List.append_assoc, List.cons_append]
  have h1 := takeWhile_pred_append isDigitCh (ntoDigits ⌊q⌋.toNat)
    ('.' :: ((List.replicate (fracLen q - (ntoDigits (fracNum q)).length) '0' ++
      ntoDigits (fracNum q)) ++ rest)) (ntoDigits_all_digit _)
    (by intro h; simp only [List.head_cons]; decide)
  have h2 := takeWhile_pred_append isDigitCh
    (List.replicate (fracLen q - (ntoDigits (fracNum q)).length) '0' ++
      ntoDigits (fracNum q)) rest hfd hrest
  have hfne : List.replicate (fracLen q - (ntoDigits (fracNum q)).length) '0' ++
      ntoDigits (fracNum q) ≠ [] := by
    intro hcon
    rcases List.append_eq_nil.1 hcon with ⟨-, hc2⟩
    exact ntoDigits_ne_nil _ hc2
  rw [hshape]
  unfold scanNum
  rw [h1.1, h1.2]
  rw [if_neg (ntoDigits_ne_nil _)]
  split
  · rename_i t heq
    injection heq with heq1 heq2
    subst heq2
    rw [h2.1, h2.2]
    rw [if_neg hfne]
    simp only [Option.some.injEq, Prod.mk.injEq]
    exact ⟨renderPos_value q hq hden, trivial⟩
  · rename_i hne
    exact ((hne _ rfl).elim)

theorem scanNum_renderFloat (q : ℚ) (hq : 0 ≤ q)
    (hden : ∃ k, 1 ≤ k ∧ k ≤ 60 ∧ (q * (10 : ℚ) ^ k).den = 1)
    (rest : List Char)
    (hrest : ∀ h : rest ≠ [], isDigitCh (rest.head h) = false) :
    scanNum (renderFloat q ++ rest) = some (q, rest) := by
  unfold renderFloat
  rw [if_neg (not_lt.2 hq)]
  exact scanNum_renderPos q hq hden rest hrest

theorem qroundHE_intCast (n : ℤ) : qroundHE ((n : ℤ) : ℚ) = n := by
  unfold qroundHE
  simp [Int.floor_intCast]

theorem qroundHE_integral {x : ℚ} (h : x.den = 1) : qroundHE x = x.num := by
  conv_lhs => rw [← Rat.coe_int_num_of_den_eq_one h]
  exact qroundHE_intCast x.num

theorem scanNum_renderFixed2 (q : ℚ) (hq : 0 ≤ q) (hden : (q * 100).den = 1)
    (rest : List Char)
    (hrest : ∀ h : rest ≠ [], isDigitCh (rest.head h) = false) :
    scanNum (renderFixed2 q ++ rest) = some (q, rest) := by
  have hnum0 : (0 : ℤ) ≤ (q * 100).num := Rat.num_nonneg.2 (by positivity)
  have hmq : (((qroundHE (q * 100)).toNat : ℕ) : ℚ) = q * 100 := by
    rw [qroundHE_integral hden]
    calc (((q * 100).num.toNat : ℕ) : ℚ)
        = (((q * 100).num.toNat : ℤ) : ℚ) := by push_cast; ring
      _ = (((q * 100).num : ℤ) : ℚ) := by rw [Int.toNat_of_nonneg hnum0]
      _ = q * 100 := Rat.coe_int_num_of_den_eq_one hden
  set m : ℕ := (qroundHE (q * 100)).toNat with hmdef
  have hL : (ntoDigits (m % 100)).length ≤ 2 :=
    ntoDigits_length_le (by omega) (by omega)
  have hfd : ∀ c ∈ List.replicate (2 - (ntoDigits (m % 100)).length) '0' ++
      ntoDigits (m % 100), isDigitCh c = true := by
    intro c hc
    rcases List.mem_append.1 hc with h1 | h1
    · rw [List.eq_of_mem_replicate h1]; decide
    · exact ntoDigits_all_digit _ c h1
  have hfne : List.replicate (2 - (ntoDigits (m % 100)).length) '0' ++
      ntoDigits (m % 100) ≠ [] := by
    intro hcon
    rcases List.append_eq_nil.1 hcon with ⟨-, hc2⟩
    exact ntoDigits_ne_nil _ hc2
  have hshape : renderFixed2 q ++ rest =
      ntoDigits (m / 100) ++ '.' ::
        ((List.replicate (2 - (ntoDigits (m % 100)).length) '0' ++
          ntoDigits (m % 100)) ++ rest) := by
    unfold renderFixed2
    simp only [List.append_assoc, List.cons_append, hmdef]
  have h1 := takeWhile_pred_append isDigitCh (ntoDigits (m / 100))
    ('.' :: ((List.replicate (2 - (ntoDigits (m % 100)).length) '0' ++
      ntoDigits (m % 100)) ++ rest)) (ntoDigits_all_digit _)
    (by intro h; simp only [List.head_cons]; decide)
  have h2 := takeWhile_pred_append isDigitCh
    (List.replicate (2 - (ntoDigits (m % 100)).length) '0' ++
      ntoDigits (m % 100)) rest hfd hrest
  rw [hshape]
  unfold scanNum
  rw [h1.1, h1.2]
  rw [if_neg (ntoDigits_ne_nil _)]
  split
  rotate_left
  · rename_i hne
    exact ((hne _ rfl).elim)
  rename_i t heq
  injection heq with heq1 heq2
  subst heq2
  rw [h2.1, h2.2]
  rw [if_neg hfne]
  simp only [Option.some.injEq, Prod.mk.injEq]
  refine ⟨?_, trivial⟩
  rw [digitsToNat_ntoDigits, digitsToNat_replicate_zero, digitsToNat_ntoDigits]
  have hlen : (List.replicate (2 - (ntoDigits (m % 100)).length) '0' ++
      ntoDigits (m % 100)).length = 2 := by
    simp only [List.length_append, List.length_replicate]
    omega
  rw [hlen]
  have hdm0 : 100 * (m / 100) + m % 100 = m := Nat.div_add_mod m 100
  have hdm : ((m / 100 : ℕ) : ℚ) * 100 + ((m % 100 : ℕ) : ℚ) = (m : ℚ) := by
    rw [mul_comm]
    exact_mod_cast hdm0
  rw [hmq] at hdm
  norm_num
  linarith [hdm]

theorem iscore_pat : " iscore=".toList = ' ' :: 'i' :: "score=".toList := rfl

theorem hasPrefixL_iscore_blanks (blanks text : List Char)
    (hb : ∀ c ∈ blanks, isPySpace c = true) :
    hasPrefixL " iscore=".toList (blanks ++ ':' :: text) = false := by
  rw [iscore_pat]
  cases blanks with
  | nil =>
    simp only [List.nil_append, hasPrefixL]
    have h1 : decide (' ' = ':') = false := by decide
    simp [h1]
  | cons b bs =>
    by_cases hbspace : b = ' '
    · subst hbspace
      cases bs with
      | nil =>
        simp only [List.cons_append, List.nil_append, hasPrefixL]
        have h1 : decide ('i' = ':') = false := by decide
        simp [h1]
      | cons b2 bs2 =>
        have hb2 : isPySpace b2 = true := hb b2 (by simp)
        have hne : b2 ≠ 'i' := by rintro rfl; revert hb2; decide
        simp only [List.cons_append, hasPrefixL]
        have h2 : decide ('i' = b2) = false :=
          decide_eq_false (fun h => hne h.symm)
        simp [h2]
    · simp only [List.cons_append, hasPrefixL]
      have h1 : decide (' ' = b) = false :=
        decide_eq_false (fun h => hbspace h.symm)
      simp [h1]

theorem parseTailNoIscore_blanks (blanks text : List Char)
    (hb : ∀ c ∈ blanks, isPySpace c = true) :
    parseTailNoIscore (blanks ++ ':' :: text) = some (none, blanks, text) := by
  have h := takeWhile_pred_append isPySpace blanks (':' :: text) hb
    (by intro h; simp only [List.head_cons]; decide)
  unfold parseTailNoIscore
  rw [h.2]
  split
  · rename_i text2 heq
    injection heq with heq1 heq2
    subst heq2
    rw [h.1]
  · rename_i hne
    exact ((hne _ rfl).elim)

theorem parseTail_blanks (blanks text : List Char)
    (hb : ∀ c ∈ blanks, isPySpace c = true) :
    parseTail (blanks ++ ':' :: text) = some (none, blanks, text) := by
  unfold parseTail
  unfold dropPre
  rw [hasPrefixL_iscore_blanks blanks text hb]
  simp only [Bool.false_eq_true, if_false]
  exact parseTailNoIscore_blanks blanks text hb

theorem parseTail_iscore (q : ℚ) (blanks text : List Char) (hq : 0 ≤ q)
    (hden : (q * 100).den = 1)
    (hb : ∀ c ∈ blanks, isPySpace c = true) :
    parseTail (" iscore=".toList ++ (renderFixed2 q ++ (blanks ++ ':' :: text))) =
      some (some q, blanks, text) := by
  unfold parseTail
  rw [dropPre_append_self]
  dsimp only
  have hrest : ∀ h : (blanks ++ ':' :: text) ≠ [],
      isDigitCh ((blanks ++ ':' :: text).head h) = false := by
    intro h
    cases blanks with
    | nil => simp only [List.nil_append, List.head_cons]; decide
    | cons b bs =>
      simp only [List.cons_append, List.head_cons]
      exact isPySpace_not_digit (hb b (by simp))
  rw [scanNum_renderFixed2 q hq hden _ hrest]
  have h := takeWhile_pred_append isPySpace blanks (':' :: text) hb
    (by intro h; simp only [List.head_cons]; decide)
  dsimp only
  rw [h.2]
  split
  · rename_i text2 heq
    injection heq with heq1 heq2
    subst heq2
    rw [h.1]
  · rename_i hne
    exact ((hne _ rfl).elim)

theorem parseTail_none_head (c : Char) (r : List Char)
    (hsp : isPySpace c = false) (hc : c ≠ ':') :
    parseTail (c :: r) = none := by
  have hcsp : c ≠ ' ' := ne_space_of_not_pyspace hsp
  unfold parseTail
  unfold dropPre
  rw [iscore_pat]
  have h1 : hasPrefixL (' ' :: 'i' :: "score=".toList) (c :: r) = false := by
    simp only [hasPrefixL]
    have h2 : decide (' ' = c) = false :=
      decide_eq_false (fun h => hcsp h.symm)
    simp [h2]
  rw [h1]
  simp only [Bool.false_eq_true, if_false]
  unfold parseTailNoIscore
  rw [List.dropWhile_cons]
  simp only [hsp, Bool.false_eq_true, if_false]
  split
  · rename_i text heq
    injection heq with hh1 hh2
    exact absurd hh1 hc
  · rfl

/-! ### Canonical-form round trip: the backtracking scanners -/

theorem isDigits_ne_nil {cs : List Char} (h : isDigits cs = true) : cs ≠ [] := by
  simp only [isDigits, Bool.and_eq_true, Bool.not_eq_true',
    List.isEmpty_eq_false, ne_eq] at h
  exact h.1

theorem isDigits_all {cs : List Char} (h : isDigits cs = true) :
    ∀ c ∈ cs, isDigitCh c = true := by
  simp only [isDigits, Bool.and_eq_true, List.all_eq_true] at h
  exact h.2

theorem bbox_to_freki_ne_colon (bb : BBox) : ∀ c ∈ bb.to_freki, c ≠ ':' := by
  intro c hc
  unfold BBox.to_freki at hc
  simp only [List.mem_append, List.mem_cons] at hc
  rcases hc with ((h | rfl | h) | rfl | h) | rfl | h
  · exact (renderFloat_char_classes bb.llx c h).2.2.1
  · decide
  · exact (renderFloat_char_classes bb.lly c h).2.2.1
  · decide
  · exact (renderFloat_char_classes bb.urx c h).2.2.1
  · decide
  · exact (renderFloat_char_classes bb.ury c h).2.2.1

/-- The `\S+?` bbox group scanner succeeds exactly at the rendered bbox
boundary: no proper suffix of the bbox can start the record tail. -/
theorem bboxScan_render :
    ∀ (bx revAcc : List Char), bx ≠ [] →
      (∀ c ∈ bx, isPySpace c = false ∧ c ≠ ':') →
      ∀ {tail : List Char} {isc : Option ℚ} {blanks text : List Char},
        parseTail tail = some (isc, blanks, text) →
        bboxScan revAcc (bx ++ tail) =
          some (revAcc.reverse ++ bx, isc, blanks, text) := by
  intro bx
  induction bx with
  | nil => intro revAcc h; exact absurd rfl h
  | cons c t ih =>
    intro revAcc _ hch tail isc blanks text hpt
    rw [List.cons_append]
    rw [bboxScan]
    rw [if_neg (by rw [(hch c (by simp)).1]; exact Bool.false_ne_true)]
    cases t with
    | nil =>
      simp only [List.nil_append]
      rw [hpt]
      simp
    | cons c2 t2 =>
      have hn : parseTail ((c2 :: t2) ++ tail) = none := by
        rw [List.cons_append]
        exact parseTail_none_head c2 _ (hch c2 (by simp)).1 (hch c2 (by simp)).2
      rw [hn]
      have hrec := ih (c :: revAcc) (by simp)
        (fun x hx => hch x (by simp [hx])) hpt
      rw [hrec]
      simp [List.append_assoc]

/-- `" bbox="` cannot straddle the boundary between the fonts group and
the following literal: a prefix match across it forces a match fully
inside the fonts group. -/
theorem bbox_pat_no_straddle (X R : List Char) (hX : X ≠ [])
    (h : hasPrefixL " bbox=".toList (X ++ (" bbox=".toList ++ R)) = true) :
    hasPrefixL " bbox=".toList X = true := by
  rcases le_or_lt 6 X.length with h6 | h6
  · rwa [hasPrefixL_long _ X _ (by simpa using h6)] at h
  · exfalso
    obtain ⟨h1, h2⟩ := hasPrefixL_short _ X _ (by simpa using h6) h
    rw [hasPrefixL_long _ _ _ (by
      simp only [List.length_drop]
      omega)] at h2
    have hlen : 1 ≤ X.length := List.length_pos.2 hX
    have hcase : X.length = 1 ∨ X.length = 2 ∨ X.length = 3 ∨
        X.length = 4 ∨ X.length = 5 := by omega
    rcases hcase with hv | hv | hv | hv | hv <;> rw [hv] at h2 <;>
      exact absurd h2 (by decide)

/-- Occurrence test for a literal pattern (used to state that a fonts
string does not contain `" bbox="`). -/
def hasPatAt (pat F : List Char) : Bool :=
  (List.range F.length).any (fun n => hasPrefixL pat (F.drop n))

theorem hasPatAt_false {pat F : List Char} (h : hasPatAt pat F = false) :
    ∀ n, n < F.length → hasPrefixL pat (F.drop n) = false := by
  intro n hn
  rw [hasPatAt] at h
  simpa using List.any_eq_false.1 h n (List.mem_range.2 hn)

/-- The `fonts=(.+?) bbox=` backtracking split recovers exactly the
rendered fonts group when the pattern does not occur inside it. -/
theorem fontsScan_render :
    ∀ (F revAcc : List Char), F ≠ [] →
      (∀ n, n < F.length → hasPrefixL " bbox=".toList (F.drop n) = false) →
      ∀ {R : List Char} {bx : List Char} {isc : Option ℚ} {blanks text : List Char},
        bboxScan [] R = some (bx, isc, blanks, text) →
        fontsScan revAcc (F ++ (" bbox=".toList ++ R)) =
          some (revAcc.reverse ++ F, bx, isc, blanks, text) := by
  intro F
  induction F with
  | nil => intro revAcc h; exact absurd rfl h
  | cons c t ih =>
    intro revAcc _ hocc R bx isc blanks text hbs
    rw [List.cons_append]
    rw [fontsScan]
    cases t with
    | nil =>
      simp only [List.nil_append]
      rw [dropPre_append_self]
      dsimp only
      rw [hbs]
      simp
    | cons c2 t2 =>
      have hpre : hasPrefixL " bbox=".toList
          ((c2 :: t2) ++ (" bbox=".toList ++ R)) = false := by
        by_contra hcon
        rw [Bool.not_eq_false] at hcon
        have h1 := bbox_pat_no_straddle (c2 :: t2) R (by simp) hcon
        have h2 := hocc 1 (by simp)
        simp only [List.drop_succ_cons, List.drop_zero] at h2
        rw [h2] at h1
        exact absurd h1 Bool.false_ne_true
      have hdp : dropPre " bbox=".toList
          ((c2 :: t2) ++ (" bbox=".toList ++ R)) = none := by
        unfold dropPre
        rw [hpre]
        simp
      rw [hdp]
      have hrec := ih (c :: revAcc) (by simp)
        (fun n hn => by
          have := hocc (n + 1) (by simpa using hn)
          simpa using this) hbs
      rw [hrec]
      simp [List.append_assoc]

theorem parse_block_line_render (l : Line) (count : ℕ)
    (hnum : isDigits l.line_num = true)
    (hFne : renderFonts l.fonts ≠ [])
    (hocc : hasPatAt " bbox=".toList (renderFonts l.fonts) = false)
    (hbl : ∀ c ∈ l.blanks, isPySpace c = true)
    (hisc : ∀ q, l.iscore = some q → 0 ≤ q ∧ (q * 100).den = 1)
    (hsing : count = 1 → l.iscore = none ∧ l.blanks = []) :
    parse_block_line (l.to_freki count) =
      some ⟨l.line_num, renderFonts l.fonts, l.bbox.to_freki, l.iscore,
        l.blanks, l.text⟩ := by
  have hpt : parseTail ((if count = 1 then [] else
      match l.iscore with
      | some q => " iscore=".toList ++ (renderFixed2 q ++ l.blanks)
      | none => l.blanks) ++ ':' :: l.text) =
      some (l.iscore, l.blanks, l.text) := by
    by_cases hc : count = 1
    · obtain ⟨h1, h2⟩ := hsing hc
      rw [if_pos hc, h1, h2]
      exact parseTail_blanks [] l.text (by simp)
    · rw [if_neg hc]
      cases hiscv : l.iscore with
      | none => exact parseTail_blanks l.blanks l.text hbl
      | some q =>
        obtain ⟨hq0, hqden⟩ := hisc q hiscv
        have h := parseTail_iscore q l.blanks l.text hq0 hqden hbl
        simpa [List.append_assoc] using h
  have hb' : ∀ c ∈ l.bbox.to_freki, isPySpace c = false ∧ c ≠ ':' :=
    fun c hc => ⟨bbox_to_freki_not_pyspace _ c hc, bbox_to_freki_ne_colon _ c hc⟩
  have hbs := bboxScan_render l.bbox.to_freki [] (bbox_to_freki_ne_nil _) hb' hpt
  simp only [List.reverse_nil, List.nil_append] at hbs
  have hfs := fontsScan_render (renderFonts l.fonts) [] hFne
    (hasPatAt_false hocc) hbs
  simp only [List.reverse_nil, List.nil_append] at hfs
  have hshape : l.to_freki count =
      "line=".toList ++ (l.line_num ++ (' ' :: ("fonts=".toList ++
        (renderFonts l.fonts ++ (" bbox=".toList ++ (l.bbox.to_freki ++
          ((if count = 1 then [] else
            match l.iscore with
            | some q => " iscore=".toList ++ (renderFixed2 q ++ l.blanks)
            | none => l.blanks) ++ ':' :: l.text))))))) := by
    unfold Line.to_freki
    rw [show " fonts=".toList = ' ' :: "fonts=".toList from rfl]
    simp only [List.append_assoc, List.cons_append]
  rw [hshape]
  unfold parse_block_line
  rw [dropPre_append_self]
  dsimp only
  have h1 := takeWhile_pred_append isDigitCh l.line_num
    (' ' :: ("fonts=".toList ++
      (renderFonts l.fonts ++ (" bbox=".toList ++ (l.bbox.to_freki ++
        ((if count = 1 then [] else
          match l.iscore with
          | some q => " iscore=".toList ++ (renderFixed2 q ++ l.blanks)
          | none => l.blanks) ++ ':' :: l.text))))))
    (isDigits_all hnum) (by intro h; simp only [List.head_cons]; decide)
  rw [h1.1, h1.2]
  rw [if_neg (isDigits_ne_nil hnum)]
  rw [show (' ' :: ("fonts=".toList ++
      (renderFonts l.fonts ++ (" bbox=".toList ++ (l.bbox.to_freki ++
        ((if count = 1 then [] else
          match l.iscore with
          | some q => " iscore=".toList ++ (renderFixed2 q ++ l.blanks)
          | none => l.blanks) ++ ':' :: l.text)))))) =
      " fonts=".toList ++
      (renderFonts l.fonts ++ (" bbox=".toList ++ (l.bbox.to_freki ++
        ((if count = 1 then [] else
          match l.iscore with
          | some q => " iscore=".toList ++ (renderFixed2 q ++ l.blanks)
          | none => l.blanks) ++ ':' :: l.text)))) from by
    rw [show " fonts=".toList = ' ' :: "fonts=".toList from rfl, List.cons_append]]
  rw [dropPre_append_self]
  dsimp only
  rw [hfs]

/-! ### Canonical-form round trip: fonts -/

/-- No `'-'` immediately followed by a digit (which would let `FONT_RE`
cut the font name short). -/
def noDashDigit : List Char → Bool
  | [] => true
  | [_] => true
  | a :: b :: t => !(a = '-' && isDigitCh b) && noDashDigit (b :: t)

theorem noDashDigit_cons {a b : Char} {t : List Char}
    (h : noDashDigit (a :: b :: t) = true) :
    (a = '-' && isDigitCh b) = false ∧ noDashDigit (b :: t) = true := by
  rw [noDashDigit] at h
  simp only [Bool.and_eq_true, Bool.not_eq_true'] at h
  exact h

theorem scanNum_none_head (cs : List Char)
    (h : ∀ hne : cs ≠ [], isDigitCh (cs.head hne) = false) :
    scanNum cs = none := by
  have htw : cs.takeWhile isDigitCh = [] := by
    cases cs with
    | nil => rfl
    | cons c t =>
      rw [List.takeWhile_cons]
      have := h (by simp)
      rw [List.head_cons] at this
      simp [this]
  unfold scanNum
  rw [htw]
  rw [if_pos rfl]

/-- The optional comma after a font size (consumed when present). -/
def stripComma : List Char → List Char
  | ',' :: r => r
  | s => s

theorem stripComma_nil : stripComma [] = [] := rfl

theorem stripComma_comma (r : List Char) : stripComma (',' :: r) = r := rfl

/-- `(.+?)-(\d+\.\d+),?` on a rendered name/size pair: the scan stops
exactly at the rendered separator dash. -/
theorem matchNameSize_render :
    ∀ (nameTail revAcc : List Char), nameTail ≠ [] →
      noDashDigit (nameTail ++ ['-']) = true →
      ∀ {sz : ℚ} {sep : List Char}, 0 ≤ sz →
      (∃ k, 1 ≤ k ∧ k ≤ 60 ∧ (sz * (10 : ℚ) ^ k).den = 1) →
      (sep = [] ∨ ∃ r, sep = ',' :: r) →
      matchNameSize revAcc (nameTail ++ '-' :: (renderPos sz ++ sep)) =
        some (revAcc.reverse ++ nameTail, sz, stripComma sep) := by
  intro nameTail
  induction nameTail with
  | nil => intro revAcc h; exact absurd rfl h
  | cons c t ih =>
    intro revAcc _ hnd sz sep hsz hden hsep
    have hsepdig : ∀ hne : sep ≠ [], isDigitCh (sep.head hne) = false := by
      intro hne
      rcases hsep with rfl | ⟨r, rfl⟩
      · exact absurd rfl hne
      · rw [List.head_cons]; decide
    cases t with
    | nil =>
      rw [List.cons_append, List.nil_append]
      rw [matchNameSize]
      rw [if_pos (by rw [List.head?_cons])]
      rw [List.tail_cons]
      rw [scanNum_renderPos sz hsz hden sep hsepdig]
      dsimp only
      rcases hsep with rfl | ⟨r, rfl⟩
      · rw [if_neg (by rw [List.head?_nil]; exact Option.noConfusion)]
        rw [stripComma_nil]
        simp
      · rw [if_pos (by rw [List.head?_cons])]
        rw [stripComma_comma]
        simp
    | cons c2 t2 =>
      have hnd2 : noDashDigit ((c2 :: t2) ++ ['-']) = true :=
        (noDashDigit_cons (by simpa using hnd)).2
      have hrec := ih (c :: revAcc) (by simp) hnd2 hsz hden hsep
      rw [List.cons_append]
      rw [matchNameSize]
      by_cases hc2 : c2 = '-'
      · subst hc2
        rw [if_pos (by rw [List.cons_append, List.head?_cons])]
        have hnone : scanNum ((('-' :: t2) ++ '-' :: (renderPos sz ++ sep)).tail) =
            none := by
          rw [List.cons_append, List.tail_cons]
          apply scanNum_none_head
          intro hne
          cases t2 with
          | nil =>
            show isDigitCh '-' = false
            decide
          | cons c3 t3 =>
            show isDigitCh c3 = false
            have h3 := (noDashDigit_cons (by simpa using hnd2)).1
            simpa using h3
        rw [hnone]
        rw [hrec]
        simp [List.append_assoc]
      · rw [if_neg (by
          rw [List.cons_append, List.head?_cons]
          intro hcon
          exact hc2 (Option.some.inj hcon))]
        rw [hrec]
        simp [List.append_assoc]

theorem renderPos_length (q : ℚ) : 3 ≤ (renderPos q).length := by
  unfold renderPos
  simp only [List.length_append, List.length_cons, List.length_replicate]
  have h1 := List.length_pos.2 (ntoDigits_ne_nil ⌊q⌋.toNat)
  have h2 := List.length_pos.2 (ntoDigits_ne_nil (fracNum q))
  omega

/-- A rendered tagless font never triggers the tag branch of `FONT_RE`:
its seventh character (when it exists) is never `'+'`. -/
theorem matchFontAt_notag (f : Font) (sep : List Char) (hftag : f.tag = [])
    (hname : f.name ≠ []) (hnd : noDashDigit (f.name ++ ['-']) = true)
    (hplus : ∀ c ∈ f.name, c ≠ '+')
    (hsz : 0 ≤ f.size)
    (hden : ∃ k, 1 ≤ k ∧ k ≤ 60 ∧ (f.size * (10 : ℚ) ^ k).den = 1)
    (hsep : sep = [] ∨ ∃ next, sep = ',' :: next ∧
      ∀ hne : next ≠ [], next.head hne ≠ '+') :
    matchFontAt (f.to_freki ++ sep) =
      some (f, stripComma sep) := by
  have hsep' : sep = [] ∨ ∃ r, sep = ',' :: r := by
    rcases hsep with rfl | ⟨next, rfl, -⟩
    · exact Or.inl rfl
    · exact Or.inr ⟨next, rfl⟩
  have htok_shape : f.to_freki = f.name ++ '-' :: renderPos f.size := by
    unfold Font.to_freki
    rw [if_pos hftag]
    unfold renderFloat
    rw [if_neg (not_lt.2 hsz)]
  have htok : ∀ c ∈ f.name ++ '-' :: renderPos f.size, c ≠ '+' := by
    intro c hc
    simp only [List.mem_append, List.mem_cons] at hc
    rcases hc with h | rfl | h
    · exact hplus c h
    · decide
    · rcases renderPos_chars f.size c h with hd | hd
      · intro hcon; subst hcon; exact absurd hd (by decide)
      · rw [hd]; decide
  have hd6 : (((f.name ++ '-' :: renderPos f.size) ++ sep).drop 6).head? ≠
      some '+' := by
    rw [List.drop_append_eq_append_drop]
    cases htd : (f.name ++ '-' :: renderPos f.size).drop 6 with
    | cons x xs =>
      rw [List.cons_append, List.head?_cons]
      intro hcon
      have hx := Option.some.inj hcon
      subst hx
      exact htok _ (List.mem_of_mem_drop (htd ▸ List.mem_cons_self _ _)) rfl
    | nil =>
      rw [List.nil_append]
      have htl : (f.name ++ '-' :: renderPos f.size).length ≤ 6 := by
        by_contra hgt
        have hlen := congrArg List.length htd
        rw [List.length_drop] at hlen
        simp only [List.length_nil] at hlen
        omega
      have h5 : 5 ≤ (f.name ++ '-' :: renderPos f.size).length := by
        simp only [List.length_append, List.length_cons]
        have hl1 := List.length_pos.2 hname
        have hl2 := renderPos_length f.size
        omega
      rcases hsep with rfl | ⟨next, rfl, hnext⟩
      · simp
      · rcases (by omega : (f.name ++ '-' :: renderPos f.size).length = 5 ∨
            (f.name ++ '-' :: renderPos f.size).length = 6) with hv | hv
        · rw [hv]
          show ((',' :: next).drop 1).head? ≠ some '+'
          rw [List.drop_succ_cons, List.drop_zero]
          cases next with
          | nil => simp
          | cons y ys =>
            rw [List.head?_cons]
            intro hcon
            have hy := Option.some.inj hcon
            have hh := hnext (by simp)
            rw [List.head_cons] at hh
            exact hh hy
        · rw [hv]
          show ((',' :: next).drop 0).head? ≠ some '+'
          rw [List.drop_zero, List.head?_cons]
          intro hcon
          exact absurd (Option.some.inj hcon) (by decide)
  rw [htok_shape]
  unfold matchFontAt
  rw [if_neg (by
    intro hcon
    simp only [Bool.and_eq_true, decide_eq_true_eq] at hcon
    exact hd6 hcon.2)]
  rw [show (f.name ++ '-' :: renderPos f.size) ++ sep =
      f.name ++ '-' :: (renderPos f.size ++ sep) from by
    simp [List.append_assoc]]
  rw [matchNameSize_render f.name [] hname hnd hsz hden hsep']
  dsimp only
  have hfeta : (⟨[], f.name, f.size⟩ : Font) = f := by rw [← hftag]
  rcases hsep' with rfl | ⟨r, rfl⟩ <;>
    simp [hfeta, stripComma_nil, stripComma_comma]

/-- A rendered tagged font parses through the tag branch of `FONT_RE`. -/
theorem matchFontAt_tag (f : Font) (sep : List Char)
    (htag6 : f.tag.length = 6) (htagch : ∀ c ∈ f.tag, isTagCh c = true)
    (hname : f.name ≠ []) (hnd : noDashDigit (f.name ++ ['-']) = true)
    (hsz : 0 ≤ f.size)
    (hden : ∃ k, 1 ≤ k ∧ k ≤ 60 ∧ (f.size * (10 : ℚ) ^ k).den = 1)
    (hsep' : sep = [] ∨ ∃ r, sep = ',' :: r) :
    matchFontAt (f.to_freki ++ sep) =
      some (f, stripComma sep) := by
  have htagne : f.tag ≠ [] := by
    intro h
    rw [h] at htag6
    simp at htag6
  have hshape : f.to_freki ++ sep =
      f.tag ++ ('+' :: (f.name ++ '-' :: (renderPos f.size ++ sep))) := by
    unfold Font.to_freki
    rw [if_neg htagne]
    unfold renderFloat
    rw [if_neg (not_lt.2 hsz)]
    simp [List.append_assoc]
  rw [hshape]
  have htake : (f.tag ++ ('+' :: (f.name ++ '-' ::
      (renderPos f.size ++ sep)))).take 6 = f.tag := by
    rw [← htag6]
    exact List.take_left _ _
  have hdrop : (f.tag ++ ('+' :: (f.name ++ '-' ::
      (renderPos f.size ++ sep)))).drop 6 =
      '+' :: (f.name ++ '-' :: (renderPos f.size ++ sep)) := by
    rw [← htag6]
    exact List.drop_left _ _
  have hdrop7 : (f.tag ++ ('+' :: (f.name ++ '-' ::
      (renderPos f.size ++ sep)))).drop 7 =
      f.name ++ '-' :: (renderPos f.size ++ sep) := by
    rw [List.drop_append_eq_append_drop]
    rw [List.drop_eq_nil_of_le (by omega), htag6]
    rfl
  unfold matchFontAt
  rw [if_pos (by
    rw [htake, hdrop]
    simp only [List.head?_cons, Bool.and_eq_true, decide_eq_true_eq]
    exact ⟨⟨htag6, List.all_eq_true.2 htagch⟩, trivial⟩)]
  rw [hdrop7]
  rw [matchNameSize_render f.name [] hname hnd hsz hden hsep']
  dsimp only
  rw [htake]
  have hfeta : (⟨f.tag, f.name, f.size⟩ : Font) = f := rfl
  rcases hsep' with rfl | ⟨r, rfl⟩ <;>
    simp [hfeta, stripComma_nil, stripComma_comma]

/-- The syntactic conditions on a `Font` under which its render re-parses
to itself: nonempty name with no `'-'`-digit pair and no `'+'`, a
nonnegative decimal size, and a tag that is absent or six uppercase
letters. -/
def wfFont (f : Font) : Bool :=
  !f.name.isEmpty && noDashDigit (f.name ++ ['-']) &&
  f.name.all (fun c => !(c = '+')) &&
  decide (0 ≤ f.size) && fracOK f.size &&
  (f.tag.isEmpty || (f.tag.length = 6 && f.tag.all isTagCh))

theorem wfFont_parts {f : Font} (h : wfFont f = true) :
    f.name ≠ [] ∧ noDashDigit (f.name ++ ['-']) = true ∧
    (∀ c ∈ f.name, c ≠ '+') ∧ 0 ≤ f.size ∧ fracOK f.size = true ∧
    (f.tag = [] ∨ (f.tag.length = 6 ∧ ∀ c ∈ f.tag, isTagCh c = true)) := by
  simp only [wfFont, Bool.and_eq_true, Bool.or_eq_true, Bool.not_eq_true',
    List.isEmpty_eq_false, List.all_eq_true, decide_eq_true_eq, ne_eq,
    List.isEmpty_iff, decide_eq_false_iff_not] at h
  obtain ⟨⟨⟨⟨⟨h1, h2⟩, h3⟩, h4⟩, h5⟩, h6⟩ := h
  exact ⟨h1, h2, h3, h4, h5, by
    rcases h6 with h | ⟨ha, hb⟩
    · exact Or.inl h
    · exact Or.inr ⟨ha, hb⟩⟩

theorem matchFontAt_wf (f : Font) (sep : List Char) (hwf : wfFont f = true)
    (hsep : sep = [] ∨ ∃ next, sep = ',' :: next ∧
      ∀ hne : next ≠ [], next.head hne ≠ '+') :
    matchFontAt (f.to_freki ++ sep) =
      some (f, stripComma sep) := by
  obtain ⟨h1, h2, h3, h4, h5, h6⟩ := wfFont_parts hwf
  rcases h6 with htag | ⟨htag6, htagch⟩
  · exact matchFontAt_notag f sep htag h1 h2 h3 h4 (fracOK_hden h5) hsep
  · refine matchFontAt_tag f sep htag6 htagch h1 h2 h4 (fracOK_hden h5) ?_
    rcases hsep with rfl | ⟨next, rfl, -⟩
    · exact Or.inl rfl
    · exact Or.inr ⟨next, rfl⟩

theorem font_to_freki_ne_nil (f : Font) (hwf : wfFont f = true) :
    f.to_freki ≠ [] := by
  obtain ⟨h1, -, -, -, -, -⟩ := wfFont_parts hwf
  unfold Font.to_freki
  by_cases ht : f.tag = []
  · rw [if_pos ht]
    simp
  · rw [if_neg ht]
    simp [ht]

theorem font_to_freki_head? (f : Font) (hwf : wfFont f = true) :
    ∀ x, f.to_freki.head? = some x → x ≠ '+' := by
  obtain ⟨h1, -, h3, -, -, h6⟩ := wfFont_parts hwf
  intro x hx
  unfold Font.to_freki at hx
  by_cases ht : f.tag = []
  · rw [if_pos ht] at hx
    obtain ⟨c, t, hct⟩ := List.exists_cons_of_ne_nil h1
    rw [hct, List.cons_append, List.head?_cons] at hx
    have hcx := Option.some.inj hx
    subst hcx
    exact h3 c (by rw [hct]; simp)
  · rw [if_neg ht] at hx
    obtain ⟨c, t, hct⟩ := List.exists_cons_of_ne_nil ht
    rw [hct, List.cons_append, List.cons_append, List.head?_cons] at hx
    have hcx := Option.some.inj hx
    subst hcx
    rcases h6 with h | ⟨-, htagch⟩
    · exact absurd h ht
    · have hch := htagch c (by rw [hct]; simp)
      intro hcon
      subst hcon
      revert hch
      decide

theorem renderFonts_cons2 (f g : Font) (r2 : List Font) :
    renderFonts (f :: g :: r2) = f.to_freki ++ ',' :: renderFonts (g :: r2) :=
  rfl

theorem renderFonts_ne_nil (fonts : List Font) (hne : fonts ≠ [])
    (hwf : ∀ f ∈ fonts, wfFont f = true) : renderFonts fonts ≠ [] := by
  cases fonts with
  | nil => exact absurd rfl hne
  | cons f rest =>
    cases rest with
    | nil => exact font_to_freki_ne_nil f (hwf f (by simp))
    | cons g r2 =>
      rw [renderFonts_cons2]
      simp

theorem renderFonts_head? (fonts : List Font)
    (hwf : ∀ f ∈ fonts, wfFont f = true) :
    ∀ x, (renderFonts fonts).head? = some x → x ≠ '+' := by
  cases fonts with
  | nil => intro x hx; simp [renderFonts] at hx
  | cons f rest =>
    have hf := hwf f (by simp)
    have hne := font_to_freki_ne_nil f hf
    obtain ⟨c, t, hct⟩ := List.exists_cons_of_ne_nil hne
    cases rest with
    | nil =>
      intro x hx
      exact font_to_freki_head? f hf x hx
    | cons g r2 =>
      rw [renderFonts_cons2]
      intro x hx
      rw [hct, List.cons_append, List.head?_cons] at hx
      have hcx := Option.some.inj hx
      subst hcx
      exact font_to_freki_head? f hf c (by rw [hct]; rfl)

theorem parseFontsAux_nil (n : ℕ) : parseFontsAux n ([] : List Char) = [] := by
  cases n <;> rfl

/-- `FONT_RE.findall` recovers the font list from its own render. -/
theorem parseFontsAux_renderFonts :
    ∀ (fonts : List Font) (fuel : ℕ), fonts ≠ [] →
      (∀ f ∈ fonts, wfFont f = true) →
      (renderFonts fonts).length ≤ fuel →
      parseFontsAux fuel (renderFonts fonts) = fonts := by
  intro fonts
  induction fonts with
  | nil => intro fuel h; exact absurd rfl h
  | cons f rest ih =>
    intro fuel _ hwf hfuel
    have hf := hwf f (by simp)
    obtain ⟨c, t, hct⟩ := List.exists_cons_of_ne_nil (font_to_freki_ne_nil f hf)
    cases rest with
    | nil =>
      have hr : renderFonts [f] = f.to_freki := rfl
      rw [hr] at hfuel ⊢
      cases fuel with
      | zero =>
        rw [hct] at hfuel
        simp at hfuel
      | succ fu =>
        rw [hct]
        rw [parseFontsAux]
        have hm := matchFontAt_wf f [] hf (Or.inl rfl)
        rw [List.append_nil, hct] at hm
        rw [hm]
        rw [stripComma_nil]
        dsimp only
        rw [parseFontsAux_nil]
    | cons g r2 =>
      rw [renderFonts_cons2] at hfuel ⊢
      cases fuel with
      | zero =>
        rw [hct, List.cons_append] at hfuel
        simp only [List.length_cons] at hfuel
        omega
      | succ fu =>
        have hwfrest : ∀ x ∈ g :: r2, wfFont x = true :=
          fun x hx => hwf x (by simp [hx])
        have hm := matchFontAt_wf f (',' :: renderFonts (g :: r2)) hf
          (Or.inr ⟨renderFonts (g :: r2), rfl, by
            intro hne2
            exact renderFonts_head? (g :: r2) hwfrest _ (List.head?_eq_head hne2)⟩)
        rw [stripComma_comma] at hm
        rw [hct, List.cons_append] at hm ⊢
        rw [parseFontsAux]
        rw [hm]
        dsimp only
        have hfu : (renderFonts (g :: r2)).length ≤ fu := by
          rw [hct, List.cons_append] at hfuel
          simp only [List.length_cons, List.length_append] at hfuel
          omega
        rw [ih fu (by simp) hwfrest hfu]

theorem parseFonts_renderFonts (fonts : List Font) (hne : fonts ≠ [])
    (hwf : ∀ f ∈ fonts, wfFont f = true) :
    parseFonts (renderFonts fonts) = fonts :=
  parseFontsAux_renderFonts fonts (renderFonts fonts).length hne hwf le_rfl

/-! ### Canonical-form round trip: lines, blocks, and whole documents -/

/-- Per-line canonical-form conditions (`count` is the number of lines of
the enclosing block): digit-string line number, well-formed fonts whose
render does not contain the `" bbox="` literal, decimal bbox, whitespace
padding, a two-decimal nonnegative score, and no score or padding at all
on lines of singleton blocks. -/
def wfLine (l : Line) (count : ℕ) : Bool :=
  isDigits l.line_num &&
  !l.fonts.isEmpty && l.fonts.all wfFont &&
  !(hasPatAt " bbox=".toList (renderFonts l.fonts)) &&
  wfBBoxQ l.bbox &&
  l.blanks.all isPySpace &&
  (match l.iscore with
   | none => true
   | some q => decide (0 ≤ q) && decide ((q * 100).den = 1)) &&
  (!(decide (count = 1)) || (decide (l.iscore = none) && l.blanks.isEmpty))

theorem wfLine_parts {l : Line} {count : ℕ} (h : wfLine l count = true) :
    isDigits l.line_num = true ∧ l.fonts ≠ [] ∧
    (∀ f ∈ l.fonts, wfFont f = true) ∧
    hasPatAt " bbox=".toList (renderFonts l.fonts) = false ∧
    wfBBoxQ l.bbox = true ∧ (∀ c ∈ l.blanks, isPySpace c = true) ∧
    (∀ q, l.iscore = some q → 0 ≤ q ∧ (q * 100).den = 1) ∧
    (count = 1 → l.iscore = none ∧ l.blanks = []) := by
  simp only [wfLine, Bool.and_eq_true, Bool.not_eq_true',
    List.isEmpty_eq_false, List.all_eq_true, ne_eq] at h
  obtain ⟨⟨⟨⟨⟨⟨⟨h1, h2⟩, h3⟩, h4⟩, h5⟩, h6⟩, h7⟩, h8⟩ := h
  refine ⟨h1, h2, h3, h4, h5, h6, ?_, ?_⟩
  · intro q hq
    rw [hq] at h7
    simp only [Bool.and_eq_true, decide_eq_true_eq] at h7
    exact h7
  · intro hc
    rw [Bool.or_eq_true, Bool.not_eq_true', decide_eq_false_iff_not] at h8
    rcases h8 with h | h
    · exact absurd hc h
    · simp only [Bool.and_eq_true, decide_eq_true_eq,
        List.isEmpty_iff] at h
      exact h

theorem line_from_freki_render (l : Line) (count : ℕ)
    (hwf : wfLine l count = true) :
    line_from_freki (l.to_freki count) = .ok l := by
  obtain ⟨h1, h2, h3, h4, h5, h6, h7, h8⟩ := wfLine_parts hwf
  have hfne : renderFonts l.fonts ≠ [] := renderFonts_ne_nil l.fonts h2 h3
  unfold line_from_freki
  rw [parse_block_line_render l count h1 hfne h4 h6 h7 h8]
  dsimp only
  rw [parse_bbox_to_freki l.bbox h5]
  dsimp only
  rw [parseFonts_renderFonts l.fonts h2 h3]

/-- Preamble-level canonical-form conditions on a block. -/
def wfBlockMeta (b : Block) : Bool :=
  isToken b.doc_id && isToken b.id && b.label.all (fun c => !isPySpace c) &&
  isDigits b.start_line && isDigits b.end_line && wfBBoxQ b.bbox

theorem wfBlockMeta_parts {b : Block} (h : wfBlockMeta b = true) :
    isToken b.doc_id = true ∧ isToken b.id = true ∧
    b.label.all (fun c => !isPySpace c) = true ∧
    isDigits b.start_line = true ∧ isDigits b.end_line = true ∧
    wfBBoxQ b.bbox = true := by
  simp only [wfBlockMeta, Bool.and_eq_true] at h
  obtain ⟨⟨⟨⟨⟨h1, h2⟩, h3⟩, h4⟩, h5⟩, h6⟩ := h
  exact ⟨h1, h2, h3, h4, h5, h6⟩

theorem parse_preamble_nil : parse_preamble [] = none := rfl

theorem parse_block_line_nil : parse_block_line [] = none := rfl

theorem dropPre_head_mismatch (p c : Char) (ps t : List Char) (h : p ≠ c) :
    dropPre (p :: ps) (c :: t) = none := by
  have hpre : hasPrefixL (p :: ps) (c :: t) = false := by
    simp only [hasPrefixL]
    have hd : decide (p = c) = false := decide_eq_false h
    simp [hd]
  unfold dropPre
  rw [hpre]
  simp

theorem splitOnChar_head (sep c : Char) (t : List Char) (h : c ≠ sep) :
    ∃ h1 r, splitOnChar sep (c :: t) = (c :: h1) :: r := by
  rw [splitOnChar]
  rw [if_neg h]
  cases hr : splitOnChar sep t with
  | nil => exact absurd hr (splitOnChar_ne_nil sep t)
  | cons a b => exact ⟨a, b, rfl⟩

/-- A rendered content line never matches the preamble regex (its first
token starts with `'l'`, not `"doc_id="`). -/
theorem parse_preamble_content (l : Line) (count : ℕ) :
    parse_preamble (l.to_freki count) = none := by
  have hshape : l.to_freki count = 'l' :: ("ine=".toList ++ (l.line_num ++
      (" fonts=".toList ++ (renderFonts l.fonts ++ (" bbox=".toList ++
        (l.bbox.to_freki ++ ((if count = 1 then [] else
          match l.iscore with
          | some q => " iscore=".toList ++ (renderFixed2 q ++ l.blanks)
          | none => l.blanks) ++ ':' :: l.text))))))) := by
    unfold Line.to_freki
    rw [show "line=".toList = 'l' :: "ine=".toList from rfl]
    simp only [List.append_assoc, List.cons_append]
  rw [hshape]
  obtain ⟨h1, r, hsplit⟩ := splitOnChar_head ' ' 'l' _ (by decide)
  unfold parse_preamble
  rw [hsplit]
  split
  · rename_i t0 t1 t2 t3 t4 t5 t6 heq
    injection heq with ht0 hr1
    rw [← ht0]
    rw [show "doc_id=".toList = 'd' :: "oc_id=".toList from rfl]
    rw [dropPre_head_mismatch 'd' 'l' _ _ (by decide)]
  · rfl

theorem appendToLast_append (acc : List Block) (b : Block) (l : Line) :
    appendToLast (acc ++ [b]) l = acc ++ [b.add_line l] := by
  induction acc with
  | nil => rfl
  | cons a rest ih =>
    cases hrb : rest ++ [b] with
    | nil => exact absurd hrb (by simp)
    | cons x xs =>
      have hl : appendToLast ((a :: rest) ++ [b]) l =
          a :: appendToLast (rest ++ [b]) l := by
        rw [List.cons_append, hrb]
        rfl
      rw [hl, ih]
      rfl

/-- Replaying a block's rendered content lines grows the partial block by
exactly those lines, leaving the loop ready for the next preamble. -/
theorem loadLoop_lines (count : ℕ) :
    ∀ (suffix : List Line) (partialB : Block) (acc : List Block)
      (rest : List (List Char)),
      (∀ l ∈ suffix, wfLine l count = true) →
      (∀ l ∈ suffix, partialB.bbox.expand_to_contain l.bbox = partialB.bbox) →
      loadLoop (suffix.map (fun l => l.to_freki count) ++ [[]] ++ rest)
        (acc ++ [partialB]) true =
      loadLoop rest (acc ++ [partialB.add_lines suffix]) false := by
  intro suffix
  induction suffix with
  | nil =>
    intro partialB acc rest _ _
    simp only [List.map_nil, List.nil_append, List.cons_append]
    rw [loadLoop]
    rw [if_neg (by rw [parse_preamble_nil]; simp)]
    rw [if_neg (by rw [parse_block_line_nil]; simp)]
    rw [if_pos rfl]
    rfl
  | cons l ls ih =>
    intro partialB acc rest hwf hbb
    have hw := hwf l (by simp)
    obtain ⟨h1, h2, h3, h4, h5, h6, h7, h8⟩ := wfLine_parts hw
    have hfne := renderFonts_ne_nil l.fonts h2 h3
    simp only [List.map_cons, List.cons_append]
    rw [loadLoop]
    rw [if_neg (by rw [parse_preamble_content l count]; simp)]
    rw [if_pos (by
      rw [parse_block_line_render l count h1 hfne h4 h6 h7 h8]; rfl)]
    rw [line_from_freki_render l count hw]
    dsimp only
    rw [if_pos rfl]
    rw [appendToLast_append]
    have hbbl : partialB.bbox.expand_to_contain l.bbox = partialB.bbox :=
      hbb l (by simp)
    have hbb' : ∀ x ∈ ls, (partialB.add_line l).bbox.expand_to_contain x.bbox =
        (partialB.add_line l).bbox := by
      intro x hx
      have hbq : (partialB.add_line l).bbox = partialB.bbox := by
        unfold Block.add_line
        dsimp only
        exact hbbl
      rw [hbq]
      exact hbb x (by simp [hx])
    rw [ih (partialB.add_line l) acc rest (fun x hx => hwf x (by simp [hx])) hbb']
    rfl

theorem add_lines_split (b : Block) :
    ∀ (suf pre : List Line), b.lines = pre ++ suf →
      (∀ l ∈ suf, b.bbox.expand_to_contain l.bbox = b.bbox) →
      Block.add_lines { b with lines := pre } suf = b := by
  intro suf
  induction suf with
  | nil =>
    intro pre hsplit _
    rw [List.append_nil] at hsplit
    rw [← hsplit]
    rfl
  | cons l ls ih =>
    intro pre hsplit hbb
    have hstep : Block.add_line { b with lines := pre } l =
        { b with lines := pre ++ [l] } := by
      unfold Block.add_line
      dsimp only
      rw [hbb l (by simp)]
    show Block.add_lines (Block.add_line { b with lines := pre } l) ls = b
    rw [hstep]
    exact ih (pre ++ [l]) (by rw [hsplit]; simp)
      (fun x hx => hbb x (by simp [hx]))

theorem add_lines_self (b : Block)
    (hbb : ∀ l ∈ b.lines, b.bbox.expand_to_contain l.bbox = b.bbox) :
    Block.add_lines { b with lines := [] } b.lines = b :=
  add_lines_split b b.lines [] rfl hbb

/-- Replaying one block's full render: the accumulator gains exactly that
block. -/
theorem loadLoop_block (b : Block) (rest : List (List Char)) (acc : List Block)
    (active : Bool) (hmeta : wfBlockMeta b = true)
    (hlines : ∀ l ∈ b.lines, wfLine l b.lines.length = true)
    (hbb : ∀ l ∈ b.lines, b.bbox.expand_to_contain l.bbox = b.bbox) :
    loadLoop (b.to_freki_lines ++ rest) acc active =
      loadLoop rest (acc ++ [b]) false := by
  obtain ⟨m1, m2, m3, m4, m5, m6⟩ := wfBlockMeta_parts hmeta
  unfold Block.to_freki_lines
  simp only [List.cons_append]
  rw [loadLoop]
  rw [if_pos (by rw [parse_preamble_to_freki b m1 m2 m3 m4 m5]; rfl)]
  rw [block_from_freki_to_freki b m1 m2 m3 m4 m5 m6]
  dsimp only
  have hloop := loadLoop_lines b.lines.length b.lines { b with lines := [] }
    acc rest hlines (by intro x hx; dsimp only; exact hbb x hx)
  rw [hloop]
  rw [add_lines_self b hbb]

/-- Replaying a block list's renders. -/
theorem loadLoop_blocks :
    ∀ (bs : List Block) (acc : List Block),
      (∀ b ∈ bs, wfBlockMeta b = true ∧
        (∀ l ∈ b.lines, wfLine l b.lines.length = true) ∧
        (∀ l ∈ b.lines, b.bbox.expand_to_contain l.bbox = b.bbox)) →
      loadLoop (bs.flatMap Block.to_freki_lines) acc false = .ok (acc ++ bs) := by
  intro bs
  induction bs with
  | nil =>
    intro acc _
    rw [List.append_nil]
    rfl
  | cons b bs2 ih =>
    intro acc hwf
    obtain ⟨hm, hl, hb⟩ := hwf b (by simp)
    rw [List.flatMap_cons]
    rw [loadLoop_block b _ acc false hm hl hb]
    rw [ih (acc ++ [b]) (fun x hx => hwf x (by simp [hx]))]
    simp

/-- Adjacent pages have distinct page indices. -/
def pageIdxChain : List Page → Bool
  | [] => true
  | [_] => true
  | p :: q :: t => (p.page_index ≠ q.page_index) && pageIdxChain (q :: t)

theorem pageIdxChain_cons {p q : Page} {t : List Page}
    (h : pageIdxChain (p :: q :: t) = true) :
    p.page_index ≠ q.page_index ∧ pageIdxChain (q :: t) = true := by
  rw [pageIdxChain] at h
  simp only [Bool.and_eq_true, decide_eq_true_eq] at h
  exact h

theorem make_pages_prepend (i : ℕ) :
    ∀ (bs : List Block) (rest : List Block) (ps : List Page),
      bs ≠ [] → (∀ b ∈ bs, b.page_index = i) →
      make_pages rest = ps →
      (ps = [] ∨ ∀ p tl, ps = p :: tl → p.page_index ≠ i) →
      make_pages (bs ++ rest) = ⟨i, bs⟩ :: ps := by
  intro bs
  induction bs with
  | nil => intro rest ps h; exact absurd rfl h
  | cons b bs2 ih =>
    intro rest ps _ hidx hrest hne
    have hbi : b.page_index = i := hidx b (by simp)
    cases bs2 with
    | nil =>
      rw [List.cons_append, List.nil_append]
      rw [make_pages]
      rw [hrest]
      cases ps with
      | nil =>
        rw [hbi]
      | cons p tl =>
        dsimp only
        have hpn : p.page_index ≠ i :=
          (hne.resolve_left (by simp)) p tl rfl
        rw [if_neg (by rw [hbi]; exact fun hcon => hpn hcon.symm)]
        rw [hbi]
    | cons b2 bs3 =>
      rw [List.cons_append]
      rw [make_pages]
      have hih := ih rest ps (by simp)
        (fun x hx => hidx x (by simp [hx])) hrest hne
      rw [hih]
      dsimp only
      rw [if_pos hbi]

theorem make_pages_flat :
    ∀ (pages : List Page),
      (∀ p ∈ pages, p.blocks ≠ [] ∧
        ∀ b ∈ p.blocks, b.page_index = p.page_index) →
      pageIdxChain pages = true →
      make_pages (pages.flatMap Page.blocks) = pages := by
  intro pages
  induction pages with
  | nil => intro _ _; rfl
  | cons p ps ih =>
    intro hwf hchain
    rw [List.flatMap_cons]
    obtain ⟨hne, hidx⟩ := hwf p (by simp)
    have hchain2 : pageIdxChain ps = true := by
      cases ps with
      | nil => rfl
      | cons q t => exact (pageIdxChain_cons hchain).2
    have hih := ih (fun x hx => hwf x (by simp [hx])) hchain2
    have hside : ps = [] ∨ ∀ q tl, ps = q :: tl → q.page_index ≠ p.page_index := by
      cases ps with
      | nil => exact Or.inl rfl
      | cons q t =>
        refine Or.inr ?_
        intro q' tl' heq
        injection heq with hq htl
        subst hq
        have hchn := (pageIdxChain_cons hchain).1
        exact fun hcon => hchn hcon.symm
    exact make_pages_prepend p.page_index p.blocks _ ps hne hidx hih hside

/-- Per-block canonical-form conditions inside a document. -/
def wfBlock (b : Block) (docId : List Char) : Bool :=
  decide (b.doc_id = docId) && wfBlockMeta b &&
  b.lines.all (fun l => wfLine l b.lines.length) &&
  b.lines.all (fun l => decide (b.bbox.expand_to_contain l.bbox = b.bbox))

theorem wfBlock_parts {b : Block} {docId : List Char}
    (h : wfBlock b docId = true) :
    b.doc_id = docId ∧ wfBlockMeta b = true ∧
    (∀ l ∈ b.lines, wfLine l b.lines.length = true) ∧
    (∀ l ∈ b.lines, b.bbox.expand_to_contain l.bbox = b.bbox) := by
  simp only [wfBlock, Bool.and_eq_true, List.all_eq_true,
    decide_eq_true_eq] at h
  obtain ⟨⟨⟨h1, h2⟩, h3⟩, h4⟩ := h
  exact ⟨h1, h2, h3, h4⟩

def wfPage (p : Page) (docId : List Char) : Bool :=
  !p.blocks.isEmpty &&
  p.blocks.all (fun b => wfBlock b docId && decide (b.page_index = p.page_index))

theorem wfPage_parts {p : Page} {docId : List Char} (h : wfPage p docId = true) :
    p.blocks ≠ [] ∧ ∀ b ∈ p.blocks, wfBlock b docId = true ∧
      b.page_index = p.page_index := by
  simp only [wfPage, Bool.and_eq_true, Bool.not_eq_true',
    List.isEmpty_eq_false, List.all_eq_true, decide_eq_true_eq, ne_eq] at h
  exact h

/-- The canonical-form conditions of the amended round-trip claim: a
well-formed document is one the serializer itself could have produced. -/
def wfDocument (d : Document) : Bool :=
  isToken d.id && !d.pages.isEmpty &&
  d.pages.all (fun p => wfPage p d.id) && pageIdxChain d.pages

theorem wfDocument_parts {d : Document} (h : wfDocument d = true) :
    isToken d.id = true ∧ d.pages ≠ [] ∧
    (∀ p ∈ d.pages, wfPage p d.id = true) ∧ pageIdxChain d.pages = true := by
  simp only [wfDocument, Bool.and_eq_true, Bool.not_eq_true',
    List.isEmpty_eq_false, List.all_eq_true, ne_eq] at h
  obtain ⟨⟨⟨h1, h2⟩, h3⟩, h4⟩ := h
  exact ⟨h1, h2, h3, h4⟩

/-- Parsing the serializer's own line list reproduces the document. -/
theorem load_freki_to_freki (d : Document) (hwf : wfDocument d = true) :
    load_freki_document d.to_freki_lines = .ok d := by
  obtain ⟨htok, hpne, hpages, hchain⟩ := wfDocument_parts hwf
  have hflat : d.to_freki_lines =
      (d.pages.flatMap Page.blocks).flatMap Block.to_freki_lines := by
    unfold Document.to_freki_lines Page.to_freki_lines
    rw [List.flatMap_assoc]
  have hblockwf : ∀ b ∈ d.pages.flatMap Page.blocks, wfBlockMeta b = true ∧
      (∀ l ∈ b.lines, wfLine l b.lines.length = true) ∧
      (∀ l ∈ b.lines, b.bbox.expand_to_contain l.bbox = b.bbox) := by
    intro b hb
    rw [List.mem_flatMap] at hb
    obtain ⟨p, hp, hbp⟩ := hb
    obtain ⟨-, hall⟩ := wfPage_parts (hpages p hp)
    obtain ⟨hwb, -⟩ := hall b hbp
    obtain ⟨-, hm, hl, hx⟩ := wfBlock_parts hwb
    exact ⟨hm, hl, hx⟩
  have hdocid : ∀ b ∈ d.pages.flatMap Page.blocks, b.doc_id = d.id := by
    intro b hb
    rw [List.mem_flatMap] at hb
    obtain ⟨p, hp, hbp⟩ := hb
    obtain ⟨-, hall⟩ := wfPage_parts (hpages p hp)
    exact (wfBlock_parts (hall b hbp).1).1
  have hpagewf : ∀ p ∈ d.pages, p.blocks ≠ [] ∧
      ∀ b ∈ p.blocks, b.page_index = p.page_index := by
    intro p hp
    obtain ⟨h1, h2⟩ := wfPage_parts (hpages p hp)
    exact ⟨h1, fun b hb => (h2 b hb).2⟩
  have hbsne : d.pages.flatMap Page.blocks ≠ [] := by
    cases hp : d.pages with
    | nil => exact absurd hp hpne
    | cons p pt =>
      rw [List.flatMap_cons]
      have hne := (hpagewf p (by rw [hp]; simp)).1
      intro hcon
      rcases List.append_eq_nil.1 hcon with ⟨h1, -⟩
      exact hne h1
  obtain ⟨b0, bs, hbs⟩ := List.exists_cons_of_ne_nil hbsne
  unfold load_freki_document
  rw [hflat]
  rw [loadLoop_blocks (d.pages.flatMap Page.blocks) [] hblockwf]
  rw [List.nil_append]
  rw [hbs]
  dsimp only
  rw [if_pos (by
    rw [List.all_eq_true]
    intro x hx
    have hx1 : x.doc_id = d.id := hdocid x (by rw [hbs]; simp [hx])
    have hb01 : b0.doc_id = d.id := hdocid b0 (by rw [hbs]; simp)
    simp [hx1, hb01])]
  have hb0 : b0.doc_id = d.id := hdocid b0 (by rw [hbs]; simp)
  rw [hb0]
  rw [← hbs]
  rw [make_pages_flat d.pages hpagewf hchain]

/-! ## Claim theorems

The kernel cannot reduce `Rat`'s arithmetic because Batteries marks it
`@[irreducible]`; concrete evaluation by `decide` needs the operations
restored to their normal (still sound — reducibility is
elaborator-level) transparency. -/

set_option allowUnsafeReducibility true

attribute [local semireducible] Rat.add Rat.mul Rat.div Rat.sub Rat.neg
  Rat.inv Rat.floor Rat.ceil

instance : Inhabited PageNumberCandidate := ⟨⟨0, 0, [], 0⟩⟩

/-- Boolean strict chain under `candLt` (the property “strictly
increasing in both page index and number”). -/
def candChain : List PageNumberCandidate → Bool
  | [] => true
  | [_] => true
  | a :: b :: t => candLt a b && candChain (b :: t)

/-- C9: the line classifier evaluates its rules in the fixed order blank,
too-short (≤10 non-space chars), digit-heavy (>50%), upper-case-heavy
(>25%), punctuation-heavy (>50%), foreign-script-heavy (>10%),
capitalized-heading-like, too-few-words (<3 ordinary words), first match
winning with `prose` as the default; in particular `classify("")` is
blank, `classify("12345678901234")` is digit-heavy, and
`classify("The quick brown fox jumps.")` is prose. -/
theorem classifier_first_match_order :
    (∀ s : List Char, categorize_line s =
      if is_blank_line s then .BLANK
      else if is_short_line s then .SHORT
      else if is_digit_line s then .DIGIT
      else if is_upper_line s then .UPPER
      else if is_punct_line s then .PUNCT
      else if is_foreign_line s then .FORGN
      else if is_cap_word_line s then .CAPWD
      else if is_min_word_line s then .MINWD
      else .PROSE) ∧
    categorize_line "".toList = .BLANK ∧
    categorize_line "12345678901234".toList = .DIGIT ∧
    categorize_line "The quick brown fox jumps.".toList = .PROSE := by
  refine ⟨fun s => rfl, by decide, by decide, by decide⟩

/-- The four candidates of C8, in input order, with `(page_index, number)`
pairs (0,1), (1,5), (2,3), (3,7). -/
def c8Candidates : Array PageNumberCandidate :=
  #[⟨0, 1, [], 0⟩, ⟨1, 5, [], 1⟩, ⟨2, 3, [], 2⟩, ⟨3, 7, [], 3⟩]

/-- C8 counterexample: on the candidates (0,1),(1,5),(2,3),(3,7) the
engine does not return (0,1),(1,5),(3,7): when (2,3) arrives it replaces
(1,5) as the best tail of length 2 (since (0,1) < (2,3) but not
(1,5) < (2,3)), and (3,7) then extends the chain through (2,3). -/
theorem lis_unique_claim_counterexample :
    longest_increasing_subsequence candLt c8Candidates ≠
      [⟨0, 1, [], 0⟩, ⟨1, 5, [], 1⟩, ⟨3, 7, [], 3⟩] := by decide

/-- C8 amended: on the candidates with pairs (0,1),(1,5),(2,3),(3,7) the
engine returns (0,1),(2,3),(3,7) — *a* longest strictly-increasing (in
both page and number) subsequence, of the maximal length 3; the claimed
output (0,1),(1,5),(3,7) is another maximal subsequence, so the LIS is
not unique on this input and the engine deterministically prefers the
one through (2,3). -/
theorem lis_returns_maximal_increasing_subsequence :
    longest_increasing_subsequence candLt c8Candidates =
      [⟨0, 1, [], 0⟩, ⟨2, 3, [], 2⟩, ⟨3, 7, [], 3⟩] ∧
    candChain (longest_increasing_subsequence candLt c8Candidates) = true ∧
    (longest_increasing_subsequence candLt c8Candidates).Sublist
      c8Candidates.toList ∧
    (∀ s ∈ c8Candidates.toList.sublists,
      candChain s = true → s.length ≤ 3) := by
  refine ⟨by decide, by decide, by decide, by decide⟩

/-- Seven `(page, number)` positions, ten concrete candidate lines each:
the disambiguation product is `10^7 > 10^6`. -/
def c7BigCandidates : List PageNumberCandidate :=
  (List.range 7).flatMap fun p =>
    (List.range 10).map fun i => ⟨p, p, [], p * 10 + i⟩

def c7BigSeq : List (ℕ × ℕ) := (List.range 7).map fun p => (p, p)

/-- Two positions with 35 and 31 candidates: the product 1085 is over
1,000 but under 1,000,000. -/
def c7MidCandidates : List PageNumberCandidate :=
  ((List.range 35).map fun i => ⟨0, 0, [], i⟩) ++
    ((List.range 31).map fun i => ⟨1, 1, [], 100 + i⟩)

def c7MidSeq : List (ℕ × ℕ) := [(0, 0), (1, 1)]

/-- C7: if the product of the per-(page,number)-position candidate-list
sizes exceeds 1,000,000 the engine returns an empty result with an error
log and never enumerates; between 1,000 and 1,000,000 it enumerates the
full cross product with a warning; and when several concrete sequences
exist, the first in enumeration order is deterministically selected. -/
theorem disambiguation_bound (seq : List (ℕ × ℕ))
    (cands : List PageNumberCandidate) :
    (subsequenceCount seq (candidateMap cands) > 1000000 →
      candidate_sequences seq cands = ([], some .error)) ∧
    ((1000 < subsequenceCount seq (candidateMap cands) ∧
        subsequenceCount seq (candidateMap cands) ≤ 1000000) →
      candidate_sequences seq cands =
        (subsequences seq (candidateMap cands), some .warning)) ∧
    (∀ seqs : List (List PageNumberCandidate), seqs ≠ [] →
      selectSequenceLines seqs =
        (seqs.headD []).map PageNumberCandidate.line) := by
  refine ⟨?_, ?_, ?_⟩
  · intro h
    unfold candidate_sequences
    rw [if_pos h]
  · rintro ⟨h1, h2⟩
    unfold candidate_sequences
    rw [if_neg (by omega), if_pos h1]
  · intro seqs hne
    cases seqs with
    | nil => exact absurd rfl hne
    | cons s t => rfl

/-- C7 witness: the bound theorem applied to the concrete 10^7 and 1085
products. -/
theorem disambiguation_bound_witness :
    (subsequenceCount c7BigSeq (candidateMap c7BigCandidates) > 1000000 ∧
      candidate_sequences c7BigSeq c7BigCandidates = ([], some .error)) ∧
    ((1000 < subsequenceCount c7MidSeq (candidateMap c7MidCandidates) ∧
        subsequenceCount c7MidSeq (candidateMap c7MidCandidates) ≤ 1000000) ∧
      candidate_sequences c7MidSeq c7MidCandidates =
        (subsequences c7MidSeq (candidateMap c7MidCandidates), some .warning)) ∧
    selectSequenceLines [[⟨0, 0, [], 3⟩], [⟨0, 0, [], 4⟩]] = [3] := by
  refine ⟨⟨by decide, (disambiguation_bound c7BigSeq c7BigCandidates).1
      (by decide)⟩, ⟨⟨by decide, by decide⟩,
    (disambiguation_bound c7MidSeq c7MidCandidates).2.1 ⟨by decide, by decide⟩⟩,
    (disambiguation_bound [] []).2.2 [[⟨0, 0, [], 3⟩], [⟨0, 0, [], 4⟩]]
      (by decide)⟩

/-- Minimum of a nonempty list of rationals (first element as base). -/
def qListMin : List ℚ → ℚ
  | [] => 0
  | x :: t => t.foldl min x

/-- Maximum of a nonempty list of rationals (first element as base). -/
def qListMax : List ℚ → ℚ
  | [] => 0
  | x :: t => t.foldl max x

/-- C2: a `remove_lines` call that changes a Block's composition but
leaves it nonempty recomputes the bbox to exactly the component-wise
min/max over the remaining lines' bboxes; an emptied Block keeps its
bbox untouched and is retained (no Block is ever deleted from its
page). -/
theorem remove_lines_bbox_invariant (b : Block) (req : List Line) :
    ((b.remove_lines req).1.lines ≠ [] → (b.remove_lines req).2 ≠ 0 →
      (b.remove_lines req).1.bbox =
        ⟨qListMin ((b.remove_lines req).1.lines.map fun l => l.bbox.llx),
         qListMin ((b.remove_lines req).1.lines.map fun l => l.bbox.lly),
         qListMax ((b.remove_lines req).1.lines.map fun l => l.bbox.urx),
         qListMax ((b.remove_lines req).1.lines.map fun l => l.bbox.ury)⟩) ∧
    ((b.remove_lines req).1.lines = [] →
      (b.remove_lines req).1.bbox = b.bbox) ∧
    (∀ d : Document,
      (d.remove_lines req).1.pages.map (fun p => p.blocks.length) =
        d.pages.map (fun p => p.blocks.length)) := by
  refine ⟨?_, ?_, ?_⟩
  · unfold Block.remove_lines
    dsimp only
    split
    · rename_i heq
      intro hne _
      rw [heq] at hne
      simp at hne
    · rename_i l rest heq
      split
      · intro _ _
        rw [heq]
        simp [qListMin, qListMax]
      · rename_i hrem
        intro _ hcount
        exact absurd (by simpa using hcount) hrem
  · unfold Block.remove_lines
    dsimp only
    split
    · intro _
      rfl
    · rename_i l rest heq
      intro hnil
      rw [heq] at hnil
      split at hnil <;> simp at hnil
  · intro d
    unfold Document.remove_lines Page.remove_lines
    simp

def c2Font : Font := ⟨[], ['F'], 1⟩

def c2L1 : Line := ⟨['1'], [c2Font], ⟨0, 8, 4, 10⟩, none, [], ['a']⟩

def c2L2 : Line := ⟨['2'], [c2Font], ⟨1, 4, 9, 6⟩, none, [], ['b']⟩

def c2L3 : Line := ⟨['3'], [c2Font], ⟨2, 0, 5, 2⟩, none, [], ['c']⟩

def c2Block : Block := ⟨['d'], 1, ['1'], ⟨0, 0, 9, 10⟩, [], ['1'], ['3'],
  [c2L1, c2L2, c2L3]⟩

def c2Doc : Document := ⟨['d'], [⟨1, [c2Block]⟩]⟩

/-- C2 witness: removing the middle line of a three-line block leaves the
bbox exactly at the min/max of the two remaining lines; removing all
lines leaves the original bbox; block counts are untouched. -/
theorem remove_lines_bbox_invariant_witness :
    (c2Block.remove_lines [c2L2]).1.lines ≠ [] ∧
    (c2Block.remove_lines [c2L2]).2 ≠ 0 ∧
    (c2Block.remove_lines [c2L2]).1.bbox = ⟨0, 0, 5, 10⟩ ∧
    (c2Block.remove_lines [c2L1, c2L2, c2L3]).1.lines = [] ∧
    (c2Block.remove_lines [c2L1, c2L2, c2L3]).1.bbox = ⟨0, 0, 9, 10⟩ ∧
    (c2Doc.remove_lines [c2L2]).1.pages.map (fun p => p.blocks.length) =
      [1] := by
  refine ⟨by decide, by decide, ?_, by decide, ?_, ?_⟩
  · rw [(remove_lines_bbox_invariant c2Block [c2L2]).1 (by decide) (by decide)]
    decide
  · rw [(remove_lines_bbox_invariant c2Block [c2L1, c2L2, c2L3]).2.1 (by decide)]
    decide
  · rw [(remove_lines_bbox_invariant c2Block [c2L2]).2.2 c2Doc]
    decide

/-- C6: when the join gap is auto-calibrated, it is strictly below the
split threshold; hence for any positive font size no vertical gap can
satisfy both the split condition (`gap ≥ split · size`) and the join
condition (`gap ≤ join · size`). -/
theorem join_threshold_below_split_threshold (d : Document) (args : RevArgs)
    (h : args.max_join_relative_gap = none) :
    effective_join_gap d args < args.min_split_relative_gap ∧
    ∀ gap fs : ℚ, 0 < fs →
      ¬(args.min_split_relative_gap * fs ≤ gap ∧
        gap ≤ effective_join_gap d args * fs) := by
  have h1 : effective_join_gap d args ≤ args.min_split_relative_gap - 1/20 := by
    unfold effective_join_gap
    rw [h]
    exact min_le_right _ _
  constructor
  · linarith
  · rintro gap fs hfs ⟨hsp, hjn⟩
    have h2 : effective_join_gap d args * fs < args.min_split_relative_gap * fs := by
      apply mul_lt_mul_of_pos_right _ hfs
      linarith
    linarith

def c6Doc : Document := ⟨['d'], []⟩

def c6Args : RevArgs := ⟨none, 1⟩

/-- C6 witness: on a concrete document with the default split threshold
1.0 the auto-calibrated join gap is below 1, and the gap value 9/10 at
font size 1 cannot satisfy both conditions. -/
theorem join_threshold_below_split_threshold_witness :
    c6Args.max_join_relative_gap = none ∧
    effective_join_gap c6Doc c6Args < c6Args.min_split_relative_gap ∧
    ¬(c6Args.min_split_relative_gap * 1 ≤ 9/10 ∧
      (9 : ℚ)/10 ≤ effective_join_gap c6Doc c6Args * 1) :=
  ⟨rfl, (join_threshold_below_split_threshold c6Doc c6Args rfl).1,
   (join_threshold_below_split_threshold c6Doc c6Args rfl).2 (9/10) 1
     (by norm_num)⟩

def c3Font : Font := ⟨[], ['F'], 1⟩

/-- Eleven vertically stacked lines, each 13 digits of text (non-prose),
consecutive gaps exactly 1.5 times the font size. -/
def c3Line (k : ℕ) : Line :=
  ⟨ntoDigits k, [c3Font], ⟨0, -(5/2) * k, 5, -(5/2) * k + 1⟩, none, [],
   "1234567890123".toList⟩

def c3Block : Block := ⟨['d'], 1, ['1'], ⟨0, -25, 5, 1⟩, [], ['0'], ['9'],
  (List.range 11).map c3Line⟩

def c3Doc : Document := ⟨['d'], [⟨1, [c3Block]⟩]⟩

/-- C3 (code bug): `most_common_prose_line_gap` never consults the line
classifier, contradicting its own name and docstring ("gap … between two
consecutive prose lines") and the claim: on a document whose eleven lines
are all digit-heavy (none prose), it still calibrates from their ten
compatible pairs and returns 1.5 instead of falling back to the default
0.8 that the claim requires when there are no prose observations. -/
theorem prose_gap_calibration_ignores_classifier :
    (∀ l ∈ c3Doc.allLines, is_prose_line l.text = false) ∧
    c3Doc.allLines.length = 11 ∧
    most_common_prose_line_gap c3Doc = 3/2 ∧
    most_common_prose_line_gap c3Doc ≠ defaultJoinGap := by
  refine ⟨by decide, by decide, by decide, by decide⟩

theorem splitLoop_fix (gap : ℚ) :
    ∀ (fuel : ℕ) (bs : List Block) (count : ℕ), pairCount bs + 1 ≤ fuel →
      (splitPass gap
        (pairCount (splitLoop gap fuel bs count).1 +
          (splitLoop gap fuel bs count).1.length)
        (splitLoop gap fuel bs count).1).2 = false := by
  intro fuel
  induction fuel with
  | zero => intro bs count h; omega
  | succ fuel ih =>
    intro bs count h
    rw [splitLoop]
    by_cases hp : (splitPass gap (pairCount bs + bs.length) bs).2 = true
    · rw [if_pos hp]
      apply ih
      have := (splitPass_spec gap (pairCount bs + bs.length) bs le_rfl).2.1 hp
      omega
    · rw [if_neg hp]
      have hp' : (splitPass gap (pairCount bs + bs.length) bs).2 = false := by
        simpa using hp
      have hid := (splitPass_spec gap (pairCount bs + bs.length) bs le_rfl).2.2 hp'
      simp only [hid]
      exact hp'

theorem joinLoop_fix (gap : ℚ) :
    ∀ (fuel : ℕ) (bs : List Block) (count : ℕ), bs.length + 1 ≤ fuel →
      joinStep gap (joinLoop gap fuel bs count).1 = none := by
  intro fuel
  induction fuel with
  | zero => intro bs count h; omega
  | succ fuel ih =>
    intro bs count h
    rw [joinLoop]
    cases hj : joinStep gap bs with
    | none => exact hj
    | some bs' =>
      apply ih
      have := joinStep_length gap bs bs' hj
      omega

/-- C5 amended, part 1: each pass on its own is idempotent — re-running
split-to-fixpoint immediately after split-to-fixpoint performs zero
further splitting passes, and re-running join-to-fixpoint after
join-to-fixpoint performs zero further merges. -/
theorem split_join_passes_individually_idempotent (p : Page) (sg jg : ℚ) :
    (split_page_blocks (split_page_blocks p sg).1 sg).2 = 0 ∧
    (join_page_blocks (join_page_blocks p jg).1 jg).2 = 0 := by
  constructor
  · show (splitLoop sg
      (pairCount (splitLoop sg (pairCount p.blocks + 1) p.blocks 0).1 + 1)
      (splitLoop sg (pairCount p.blocks + 1) p.blocks 0).1 0).2 = 0
    rw [splitLoop]
    rw [if_neg (by
      rw [splitLoop_fix sg (pairCount p.blocks + 1) p.blocks 0 le_rfl]
      simp)]
  · show (joinLoop jg
      ((joinLoop jg (p.blocks.length + 1) p.blocks 0).1.length + 1)
      (joinLoop jg (p.blocks.length + 1) p.blocks 0).1 0).2 = 0
    rw [joinLoop]
    rw [joinLoop_fix jg (p.blocks.length + 1) p.blocks 0 le_rfl]

def c5Font : Font := ⟨[], ['F'], 1⟩

def c5L1 : Line := ⟨['1'], [c5Font], ⟨0, 0, 5, 11⟩, none, [], ['a']⟩

def c5L2 : Line := ⟨['2'], [c5Font], ⟨0, 10, 5, 12⟩, none, [], ['b']⟩

def c5L3 : Line := ⟨['3'], [c5Font], ⟨0, -5, 5, -(1/2)⟩, none, [], ['c']⟩

def c5B1 : Block := ⟨['d'], 1, ['1'], ⟨0, 0, 5, 12⟩, [], ['1'], ['2'],
  [c5L1, c5L2]⟩

def c5B2 : Block := ⟨['d'], 1, ['2'], ⟨0, -5, 5, -(1/2)⟩, [], ['3'], ['3'],
  [c5L3]⟩

def c5Page : Page := ⟨1, [c5B1, c5B2]⟩

/-- C5 counterexample: on this page (two lines overlapping vertically in
one block, a third block joined underneath) the first split-then-join run
performs one join, after which the merged block contains a widely
separated line pair; the second run splits it (and then re-joins it), so
the second run's (splits, joins) is (1, 1), not (0, 0). -/
theorem revise_engine_not_idempotent :
    (revise_page_blocks c5Page 1 (4/5)).2 = (0, 1) ∧
    (revise_page_blocks (revise_page_blocks c5Page 1 (4/5)).1 1 (4/5)).2 =
      (1, 1) ∧
    (revise_page_blocks (revise_page_blocks c5Page 1 (4/5)).1 1 (4/5)).2 ≠
      ((0 : ℕ), (0 : ℕ)) := by
  refine ⟨by decide, by decide, by decide⟩

/-- Concatenated lines of a block list, in order. -/
def flatLines (bs : List Block) : List Line := bs.flatMap Block.lines

theorem joinStep_flat (gap : ℚ) :
    ∀ bs bs' : List Block, joinStep gap bs = some bs' →
      flatLines bs' = flatLines bs
  | b1 :: b2 :: rest, bs' => by
    rw [joinStep]
    split
    · intro h
      cases h
      show flatLines ((Block.add_lines b1 b2.lines) :: rest) = _
      simp only [flatLines, List.flatMap_cons, add_lines_lines]
      simp
    · split
      · rename_i r hr
        intro h
        cases h
        have := joinStep_flat gap (b2 :: rest) r hr
        simp only [flatLines, List.flatMap_cons] at this ⊢
        rw [this]
      · intro h
        cases h
  | [], bs' => by simp [joinStep]
  | [b], bs' => by simp [joinStep]

theorem joinLoop_flat (gap : ℚ) :
    ∀ (fuel : ℕ) (bs : List Block) (count : ℕ),
      flatLines (joinLoop gap fuel bs count).1 = flatLines bs := by
  intro fuel
  induction fuel with
  | zero => intro bs count; rfl
  | succ fuel ih =>
    intro bs count
    rw [joinLoop]
    cases hj : joinStep gap bs with
    | none => rfl
    | some bs' => rw [ih bs' (count + 1), joinStep_flat gap bs bs' hj]

theorem splitPass_flat (gap : ℚ) :
    ∀ (fuel : ℕ) (bs : List Block), (∀ b ∈ bs, b.lines.Nodup) →
      flatLines (splitPass gap fuel bs).1 = flatLines bs ∧
      (∀ b ∈ (splitPass gap fuel bs).1, b.lines.Nodup) := by
  intro fuel
  induction fuel with
  | zero =>
    intro bs hnd
    cases bs with
    | nil => exact ⟨rfl, by simp [splitPass]⟩
    | cons b rest => exact ⟨rfl, hnd⟩
  | succ fuel ih =>
    intro bs hnd
    cases bs with
    | nil => exact ⟨rfl, by simp [splitPass]⟩
    | cons b rest =>
      rw [splitPass]
      cases hf : findSplit b gap with
      | none =>
        simp only
        have hrec := ih rest (fun x hx => hnd x (by simp [hx]))
        constructor
        · simp only [flatLines, List.flatMap_cons] at hrec ⊢
          rw [hrec.1]
        · intro x hx
          rcases List.mem_cons.1 hx with rfl | hx
          · exact hnd x (by simp)
          · exact hrec.2 x hx
      | some pair =>
        obtain ⟨b1, b2⟩ := pair
        simp only
        obtain ⟨j, hj, hb2, hb1⟩ := findSplit_spec hf
        have hbnd : b.lines.Nodup := hnd b (by simp)
        have htd := List.take_append_drop (j + 1) b.lines
        have hb1' : b1.lines = b.lines.take (j + 1) := by
          rw [hb1]
          have hra := removeEach_append_self (b.lines.drop (j + 1))
            (b.lines.take (j + 1)) (by rw [htd]; exact hbnd)
          rw [htd] at hra
          exact hra
        have hb1nd : b1.lines.Nodup := by
          rw [hb1']
          exact hbnd.sublist (List.take_sublist _ _)
        have hb2nd : b2.lines.Nodup := by
          rw [hb2]
          exact hbnd.sublist (List.drop_sublist _ _)
        have hrec := ih (b2 :: rest) (by
          intro x hx
          rcases List.mem_cons.1 hx with rfl | hx
          · exact hb2nd
          · exact hnd x (by simp [hx]))
        constructor
        · simp only [flatLines, List.flatMap_cons] at hrec ⊢
          rw [hrec.1]
          rw [← List.append_assoc, hb1', hb2, htd]
        · intro x hx
          rcases List.mem_cons.1 hx with rfl | hx
          · exact hb1nd
          · exact hrec.2 x hx

theorem splitLoop_flat (gap : ℚ) :
    ∀ (fuel : ℕ) (bs : List Block) (count : ℕ), (∀ b ∈ bs, b.lines.Nodup) →
      flatLines (splitLoop gap fuel bs count).1 = flatLines bs := by
  intro fuel
  induction fuel with
  | zero => intro bs count _; rfl
  | succ fuel ih =>
    intro bs count hnd
    rw [splitLoop]
    have hp := splitPass_flat gap (pairCount bs + bs.length) bs hnd
    by_cases hc : (splitPass gap (pairCount bs + bs.length) bs).2 = true
    · rw [if_pos hc, ih _ (count + 1) hp.2, hp.1]
    · rw [if_neg hc]
      exact hp.1

/-- C10: both `split_page_blocks` and `join_page_blocks` preserve the
page's concatenated line sequence — the very same `Line` values in the
same order (so no line is lost, duplicated or reordered, and no line's
text, fonts or bbox is modified).  The `Nodup` hypothesis expresses that
the page's lines are distinct objects, which holds for every parsed
page (Python removes lines by object identity). -/
theorem revise_passes_preserve_lines (p : Page) (sg jg : ℚ)
    (h : ∀ b ∈ p.blocks, b.lines.Nodup) :
    (split_page_blocks p sg).1.blocks.flatMap Block.lines =
      p.blocks.flatMap Block.lines ∧
    (join_page_blocks p jg).1.blocks.flatMap Block.lines =
      p.blocks.flatMap Block.lines := by
  constructor
  · exact splitLoop_flat sg (pairCount p.blocks + 1) p.blocks 0 h
  · exact joinLoop_flat jg (p.blocks.length + 1) p.blocks 0

/-- C10 witness: on the concrete page of C5 (whose per-block line lists
are duplicate-free) both passes keep the concatenated line list
`[c5L1, c5L2, c5L3]`. -/
theorem revise_passes_preserve_lines_witness :
    (∀ b ∈ c5Page.blocks, b.lines.Nodup) ∧
    (split_page_blocks c5Page 1).1.blocks.flatMap Block.lines =
      [c5L1, c5L2, c5L3] ∧
    (join_page_blocks c5Page (4/5)).1.blocks.flatMap Block.lines =
      [c5L1, c5L2, c5L3] := by
  refine ⟨by decide, ?_, ?_⟩
  · rw [(revise_passes_preserve_lines c5Page 1 (4/5) (by decide)).1]
    decide
  · rw [(revise_passes_preserve_lines c5Page 1 (4/5) (by decide)).2]
    decide

instance instDecEqExceptP {ε α : Type} [DecidableEq ε] [DecidableEq α] :
    DecidableEq (Except ε α)
  | .ok a, .ok b =>
    match decEq a b with
    | isTrue h => isTrue (by rw [h])
    | isFalse h => isFalse (fun he => h (by injection he))
  | .error a, .error b =>
    match decEq a b with
    | isTrue h => isTrue (by rw [h])
    | isFalse h => isFalse (fun he => h (by injection he))
  | .ok _, .error _ => isFalse (fun he => by injection he)
  | .error _, .ok _ => isFalse (fun he => by injection he)

/-- A file whose first line is a well-formed content line — there is no
open block to attach it to. -/
def c4BadFile : List (List Char) :=
  ["line=1 fonts=F-1.0 bbox=0.0,0.0,1.0,1.0:x".toList]

/-- A well-formed one-block file. -/
def c4GoodFile : List (List Char) :=
  ["doc_id=d page=1 block_id=b1 bbox=0.0,0.0,10.0,10.0 label=l 1 1".toList,
   "line=1 fonts=F-1.0 bbox=0.0,0.0,10.0,10.0:hello".toList,
   []]

/-- A file that fails to parse with a `ValueError` (malformed record). -/
def c4GarbageFile : List (List Char) := ["garbage".toList]

/-- C4 (code bug): a content line with no open block raises
`AttributeError` (`'NoneType' object has no attribute 'add_line'`),
which `main`'s `except ValueError` does not catch: the whole batch dies
instead of logging the error and continuing with the next input — in
contrast to a genuine `ValueError` input, after which the batch does
continue. -/
theorem content_line_without_open_block_kills_batch :
    load_freki_document c4BadFile = .error .attrError ∧
    mainLoad [c4BadFile, c4GoodFile] = .error .attrError ∧
    mainLoad [c4GarbageFile, c4GoodFile] = mainLoad [c4GoodFile] ∧
    (match mainLoad [c4GarbageFile, c4GoodFile] with
     | .ok outs => outs.length
     | .error _ => 0) = 1 := by
  refine ⟨by decide, by decide, by decide, by decide⟩

/-- A syntactically valid freki file whose `iscore` fields are written
with one decimal digit. -/
def c1Input : List (List Char) :=
  ["doc_id=d page=1 block_id=b1 bbox=0.0,0.0,10.0,10.0 label=l 1 2".toList,
   "line=1 fonts=F-1.0 bbox=0.0,5.0,10.0,10.0 iscore=0.5:aa".toList,
   "line=2 fonts=F-1.0 bbox=0.0,0.0,10.0,4.0 iscore=0.5:bb".toList,
   []]

/-- C1 counterexample: `c1Input` parses successfully (it is syntactically
valid), but re-serializing renders each confidence score with two decimal
digits (`iscore=0.50`), so the output is not byte-identical to the
input. -/
theorem freki_roundtrip_counterexample :
    (load_freki_document c1Input).map Document.to_freki_lines ≠
      .ok c1Input ∧
    (load_freki_document c1Input).map Document.to_freki_lines =
      .ok ["doc_id=d page=1 block_id=b1 bbox=0.0,0.0,10.0,10.0 label=l 1 2".toList,
           "line=1 fonts=F-1.0 bbox=0.0,5.0,10.0,10.0 iscore=0.50:aa".toList,
           "line=2 fonts=F-1.0 bbox=0.0,0.0,10.0,4.0 iscore=0.50:bb".toList,
           []] := by
  refine ⟨by decide, by decide⟩

/-- C1 (amended): the round trip does hold in the serialize-first
direction on canonical documents.  For every well-formed document — one
whose shapes the serializer itself produces (`wfDocument`: token ids,
nonempty consistently-indexed pages, decimal coordinates, two-decimal
nonnegative scores absent on singleton blocks, whitespace padding, and
font names avoiding the `FONT_RE`/`" bbox="` ambiguities) — parsing the
serialized line list returns exactly the document, and hence
re-serializing the parse reproduces the serialized text byte for byte. -/
theorem freki_roundtrip_on_canonical_documents (d : Document)
    (hwf : wfDocument d = true) :
    load_freki_document d.to_freki_lines = .ok d ∧
    (load_freki_document d.to_freki_lines).map Document.to_freki_lines =
      .ok d.to_freki_lines := by
  have h := load_freki_to_freki d hwf
  refine ⟨h, ?_⟩
  rw [h]
  rfl

/-- A canonical two-page document exercising tagged and untagged fonts,
multi-font lines, iscore lines, and a singleton block. -/
def c1CanonDoc : Document :=
  ⟨"d1".toList,
   [⟨0, [⟨"d1".toList, 0, "d1.0".toList, ⟨0, -1/2, 10, 21/2⟩,
      "text".toList, "1".toList, "2".toList,
      [⟨"1".toList, [⟨"ABCDEF".toList, "Times-Roman".toList, 21/2⟩],
        ⟨0, 0, 5, 10⟩, some (1/2), [' ', ' '], "Hello x".toList⟩,
       ⟨"2".toList, [⟨[], "F".toList, 1⟩, ⟨"GHIJKL".toList, "Arial".toList, 2⟩],
        ⟨1, -1/2, 9, 1⟩, none, [], []⟩]⟩]⟩,
    ⟨1, [⟨"d1".toList, 1, "d1.1".toList, ⟨0, 0, 1, 1⟩, [],
      "3".toList, "3".toList,
      [⟨"3".toList, [⟨[], "Cour-ier".toList, 5⟩], ⟨0, 0, 1, 1⟩, none, [],
        "end.".toList⟩]⟩]⟩]⟩

theorem freki_roundtrip_on_canonical_documents_witness :
    wfDocument c1CanonDoc = true ∧
    load_freki_document c1CanonDoc.to_freki_lines = .ok c1CanonDoc ∧
    (load_freki_document c1CanonDoc.to_freki_lines).map Document.to_freki_lines =
      .ok c1CanonDoc.to_freki_lines :=
  ⟨by decide, freki_roundtrip_on_canonical_documents c1CanonDoc (by decide)⟩

end Pdftools
